import Mathlib

/-
  Verification of the multi-stream chunk engine in `stream.c`
  (multiplexing N logical byte streams into one file, per-chunk bzip2
  compression, linked chunk headers back-patched on flush).

  Shallow embedding conventions:
  * A file descriptor is a byte list plus a position; `read`/`write` of the
    C wrappers `read_buf`/`write_buf` demand exactly `len` bytes ("all bytes
    or failure"), mirroring the short-read and short-write checks in the source.
  * `writeOk` models whether `write(2)` succeeds; a failed write changes
    nothing (the wrappers report -1 and the callers shown here either
    propagate it, or — in `open_stream_out` — ignore it).
  * bzlib is opaque: an abstract record of a block compressor and
    decompressor, plus a `mallocOk` flag for the one allocation whose
    failure the source tolerates silently (`compress_buf`).  All other
    allocations are modelled as succeeding (infinite-memory semantics);
    their failure paths in the source only abort the current operation.
  * u32 fields (`cur_pos`, `last_head`, `total_read`, `c_len`, `u_len`)
    wrap modulo 2^32, written `% U32` at each arithmetic update.
  * Fallible operations return `Option`; `none` is the C return of -1/NULL.
    State mutations performed on a path that then fails are discarded.
  * `padTake n l` models reading `n` bytes from a memory region whose
    tracked contents are `l`: bytes beyond the tracked contents read as 0
    (in C they would be garbage).  In every reachable state of the claims
    proved below the tracked contents have exactly the demanded length.
-/

namespace Rzip

def U32 : Nat := 2 ^ 32

def CTYPE_NONE : Nat := 3
def CTYPE_BZIP2 : Nat := 4

/-- Read `n` bytes from a region whose tracked contents are `l`
(missing bytes read as 0). -/
def padTake (n : Nat) (l : List Nat) : List Nat :=
  l.take n ++ List.replicate (n - l.length) 0

/-- Overwrite the bytes of `data` at offset `pos` with `bs`, extending the
file (zero-filled, as a sparse file would) if needed. -/
def writeBytesAt (data : List Nat) (pos : Nat) (bs : List Nat) : List Nat :=
  data.take pos ++ List.replicate (pos - data.length) 0 ++ bs
    ++ data.drop (pos + bs.length)

/-- A file descriptor: contents, current offset, and whether `write(2)`
calls succeed. -/
structure Fd where
  data : List Nat
  pos : Nat
  writeOk : Bool
deriving Repr, DecidableEq

/-- `write_buf`: write all of `bs` at the current position or fail. -/
def write_buf (fd : Fd) (bs : List Nat) : Option Fd :=
  if fd.writeOk then
    some { fd with data := writeBytesAt fd.data fd.pos bs, pos := fd.pos + bs.length }
  else none

/-- `write_u8` -/
def write_u8 (fd : Fd) (v : Nat) : Option Fd :=
  write_buf fd [v % 256]

/-- `write_u16`: low byte first. -/
def write_u16 (fd : Fd) (v : Nat) : Option Fd :=
  write_buf fd [v % 256, v / 256 % 256]

/-- `write_u32`: two little-endian u16 halves, low half first. -/
def write_u32 (fd : Fd) (v : Nat) : Option Fd := do
  let fd ← write_u16 fd (v % 65536)
  write_u16 fd (v / 65536)

/-- `read_buf`: read exactly `len` bytes or fail (a short read is an error). -/
def read_buf (fd : Fd) (len : Nat) : Option (List Nat × Fd) :=
  if fd.pos + len ≤ fd.data.length then
    some ((fd.data.drop fd.pos).take len, { fd with pos := fd.pos + len })
  else none

/-- `read_u8` -/
def read_u8 (fd : Fd) : Option (Nat × Fd) := do
  let (bs, fd) ← read_buf fd 1
  return (bs.getD 0 0, fd)

/-- `read_u16`: `(p[1] << 8) | p[0]` (file bytes are < 256, so `|` is `+`). -/
def read_u16 (fd : Fd) : Option (Nat × Fd) := do
  let (p, fd) ← read_buf fd 2
  return (p.getD 1 0 * 256 + p.getD 0 0, fd)

/-- `read_u32`: two u16 halves, low half first. -/
def read_u32 (fd : Fd) : Option (Nat × Fd) := do
  let (v1, fd) ← read_u16 fd
  let (v2, fd) ← read_u16 fd
  return (v2 * 65536 + v1, fd)

/-- Pure little-endian serializations (what the writers above emit). -/
def u16le (v : Nat) : List Nat := [v % 256, v / 256 % 256]

def u32le (v : Nat) : List Nat := u16le (v % 65536) ++ u16le (v / 65536)

/-- The external block codec (bzlib) together with the allocator consulted
by `compress_buf`.  `bzCompress cap src level` returns the compressed form
of `src`, or `none` on any failure (including "would not fit in `cap`");
`bzDecompress cap src` returns the decompressed form or `none`. -/
structure Bzlib where
  bzCompress : Nat → List Nat → Nat → Option (List Nat)
  bzDecompress : Nat → List Nat → Option (List Nat)
  mallocOk : Bool

/-- The contract of the external block codec (§6 of its interface):
compressed output fits in the supplied destination capacity, and
decompressing with the original length as capacity restores the source. -/
def CodecOk (bz : Bzlib) : Prop :=
  ∀ cap src lvl out, bz.bzCompress cap src lvl = some out →
    out.length ≤ cap ∧ bz.bzDecompress src.length out = some src

/-- `struct stream` -/
structure Stream where
  last_head : Nat
  buf : List Nat
  buflen : Nat
  bufp : Nat
  bzip_level : Nat
deriving Repr, DecidableEq, Inhabited

/-- `struct stream_info` -/
structure StreamInfo where
  s : List Stream
  num_streams : Nat
  fd : Fd
  bufsize : Nat
  cur_pos : Nat
  initial_pos : Nat
  total_read : Nat
deriving Repr, DecidableEq

/-- `compress_buf`: try to compress `s.buf`; on any failure (level 0,
allocation failure, codec failure) leave everything unchanged.  The
destination capacity is `buflen - 1` computed in unsigned arithmetic. -/
def compress_buf (bz : Bzlib) (s : Stream) (c_type c_len : Nat) :
    Stream × Nat × Nat :=
  let dlen := (s.buflen + (U32 - 1)) % U32
  if s.bzip_level = 0 then (s, c_type, c_len)
  else if bz.mallocOk = false then (s, c_type, c_len)
  else
    match bz.bzCompress dlen s.buf s.bzip_level with
    | none => (s, c_type, c_len)
    | some cbuf => ({ s with buf := cbuf }, CTYPE_BZIP2, cbuf.length % U32)

/-- `decompress_buf`: replace `s.buf` (holding the `c_len` on-disk payload
bytes) by its decompression of expected size `s.buflen`; fail if the codec
fails or the decompressed length disagrees with `s.buflen`. -/
def decompress_buf (bz : Bzlib) (s : Stream) (c_len c_type : Nat) :
    Option Stream :=
  if c_type = CTYPE_NONE then some s
  else
    match bz.bzDecompress s.buflen (padTake c_len s.buf) with
    | none => none
    | some out =>
      if out.length = s.buflen then some { s with buf := out } else none

/-- `seekto`: absolute seek to `initial_pos + pos` (always reaches its
target on a regular file, so modelled as total). -/
def seekto (sinfo : StreamInfo) (pos : Nat) : StreamInfo :=
  { sinfo with fd := { sinfo.fd with pos := sinfo.initial_pos + pos } }

/-- The initial-header loop of `open_stream_out`: for each stream set
`last_head = cur_pos + 9`, emit a placeholder header (c_type 3, three zero
u32s) with the write results ignored, and advance `cur_pos` by 13. -/
def initHeaderLoop (fd : Fd) (cur_pos : Nat) (count : Nat) (lvl : Nat) :
    Fd × Nat × List Stream :=
  match count with
  | 0 => (fd, cur_pos, [])
  | k + 1 =>
    let st : Stream :=
      { last_head := (cur_pos + 9) % U32, buf := [], buflen := 0, bufp := 0,
        bzip_level := lvl }
    let fd := (write_u8 fd CTYPE_NONE).getD fd
    let fd := (write_u32 fd 0).getD fd
    let fd := (write_u32 fd 0).getD fd
    let fd := (write_u32 fd 0).getD fd
    let (fd', cp', rest) := initHeaderLoop fd ((cur_pos + 13) % U32) k lvl
    (fd', cp', st :: rest)

/-- `open_stream_out` (allocation modelled as succeeding; the write results
for the placeholder headers are discarded exactly as in the source). -/
def open_stream_out (f : Fd) (n : Nat) (bzip_level : Nat) : Option StreamInfo :=
  let bufsize := if bzip_level = 0 then 100 * 1024 else 100 * 1024 * bzip_level
  let initial_pos := f.pos
  let (fd', cur_pos, streams) := initHeaderLoop f 0 n bzip_level
  some { s := streams, num_streams := n, fd := fd', bufsize := bufsize,
         cur_pos := cur_pos, initial_pos := initial_pos, total_read := 0 }

/-- Read one 13-byte chunk header (c_type, c_len, u_len, next_head). -/
def read_header (fd : Fd) : Option ((Nat × Nat × Nat × Nat) × Fd) := do
  let (c, fd) ← read_u8 fd
  let (v1, fd) ← read_u32 fd
  let (v2, fd) ← read_u32 fd
  let (lh, fd) ← read_u32 fd
  return ((c, v1, v2, lh), fd)

theorem read_buf_facts {fd : Fd} {len : Nat} {bs : List Nat} {fd' : Fd}
    (h : read_buf fd len = some (bs, fd')) :
    fd'.data = fd.data ∧ fd'.pos = fd.pos + len ∧ fd'.pos ≤ fd.data.length ∧
      fd'.writeOk = fd.writeOk := by
  unfold read_buf at h
  split at h
  · simp only [Option.some.injEq, Prod.mk.injEq] at h
    obtain ⟨-, h2⟩ := h
    subst h2
    simp_all
  · exact absurd h (by simp)

theorem read_u8_facts {fd : Fd} {v : Nat} {fd' : Fd}
    (h : read_u8 fd = some (v, fd')) :
    fd'.data = fd.data ∧ fd'.pos = fd.pos + 1 ∧ fd'.pos ≤ fd.data.length ∧
      fd'.writeOk = fd.writeOk := by
  unfold read_u8 at h
  simp only [Option.bind_eq_bind, Option.bind_eq_some] at h
  obtain ⟨⟨bs, fd1⟩, hb, h⟩ := h
  simp only [Option.pure_def, Option.some.injEq, Prod.mk.injEq] at h
  obtain ⟨-, h2⟩ := h
  subst h2
  exact read_buf_facts hb

theorem read_u16_facts {fd : Fd} {v : Nat} {fd' : Fd}
    (h : read_u16 fd = some (v, fd')) :
    fd'.data = fd.data ∧ fd'.pos = fd.pos + 2 ∧ fd'.pos ≤ fd.data.length ∧
      fd'.writeOk = fd.writeOk := by
  unfold read_u16 at h
  simp only [Option.bind_eq_bind, Option.bind_eq_some] at h
  obtain ⟨⟨bs, fd1⟩, hb, h⟩ := h
  simp only [Option.pure_def, Option.some.injEq, Prod.mk.injEq] at h
  obtain ⟨-, h2⟩ := h
  subst h2
  exact read_buf_facts hb

theorem read_u32_facts {fd : Fd} {v : Nat} {fd' : Fd}
    (h : read_u32 fd = some (v, fd')) :
    fd'.data = fd.data ∧ fd'.pos = fd.pos + 4 ∧ fd'.pos ≤ fd.data.length ∧
      fd'.writeOk = fd.writeOk := by
  unfold read_u32 at h
  simp only [Option.bind_eq_bind, Option.bind_eq_some] at h
  obtain ⟨⟨v1, fd1⟩, h1, h⟩ := h
  obtain ⟨⟨v2, fd2⟩, h2, h⟩ := h
  dsimp only at h2 h
  simp only [Option.pure_def, Option.some.injEq, Prod.mk.injEq] at h
  obtain ⟨-, hf⟩ := h
  subst hf
  obtain ⟨a1, b1, c1, d1⟩ := read_u16_facts h1
  obtain ⟨a2, b2, c2, d2⟩ := read_u16_facts h2
  refine ⟨a2.trans a1, ?_, ?_, d2.trans d1⟩
  · rw [b2, b1]
  · rw [a1] at c2
    exact c2

theorem read_header_facts {fd : Fd} {h4 : Nat × Nat × Nat × Nat} {fd' : Fd}
    (h : read_header fd = some (h4, fd')) :
    fd'.data = fd.data ∧ fd'.pos = fd.pos + 13 ∧ fd'.pos ≤ fd.data.length ∧
      fd'.writeOk = fd.writeOk := by
  unfold read_header at h
  simp only [Option.bind_eq_bind, Option.bind_eq_some] at h
  obtain ⟨⟨c, fd1⟩, e1, h⟩ := h
  obtain ⟨⟨v1, fd2⟩, e2, h⟩ := h
  obtain ⟨⟨v2, fd3⟩, e3, h⟩ := h
  obtain ⟨⟨lh, fd4⟩, e4, h⟩ := h
  dsimp only at e2 e3 e4 h
  simp only [Option.pure_def, Option.some.injEq, Prod.mk.injEq] at h
  obtain ⟨-, hf⟩ := h
  subst hf
  obtain ⟨a1, b1, c1, d1⟩ := read_u8_facts e1
  obtain ⟨a2, b2, c2, d2⟩ := read_u32_facts e2
  obtain ⟨a3, b3, c3, d3⟩ := read_u32_facts e3
  obtain ⟨a4, b4, c4, d4⟩ := read_u32_facts e4
  refine ⟨(a4.trans a3).trans (a2.trans a1), ?_, ?_,
    (d4.trans d3).trans (d2.trans d1)⟩
  · rw [b4, b3, b2, b1]
  · rw [a3, a2, a1] at c4
    exact c4

/-- The `again` loop of `open_stream_in` for one stream `i`: read a header;
if it is the sentinel `(CTYPE_NONE, 0, 0, 0)` and `i = 0`, advance
`initial_pos` by 13 and read again.  Besides the accepted header fields,
the new `initial_pos` and the advanced fd, it returns (as instrumentation)
the list of stream indices at which the workaround fired, one entry per
application. -/
def open_in_hdr (fd : Fd) (ip i : Nat) :
    Option ((Nat × Nat × Nat × Nat) × Nat × Fd) × List Nat :=
  match hh : read_header fd with
  | none => (none, [])
  | some ((c, v1, v2, lh), fd') =>
    if c = CTYPE_NONE ∧ v1 = 0 ∧ v2 = 0 ∧ lh = 0 ∧ i = 0 then
      let r := open_in_hdr fd' (ip + 13) i
      (r.1, i :: r.2)
    else (some ((c, v1, v2, lh), ip, fd'), [])
termination_by fd.data.length - fd.pos
decreasing_by
  obtain ⟨hd, hp, hle, -⟩ := read_header_facts hh
  rw [hd, hp]
  omega

/-- The per-stream loop of `open_stream_in`: for each stream read (and,
for stream 0, possibly re-read) the initial header, count it in
`total_read`, and validate `c_type = CTYPE_NONE`, `c_len = 0`, `u_len = 0`.
Returns the stream records, the final `initial_pos`, fd, `total_read`, and
the concatenated workaround log. -/
def open_in_loop (fd : Fd) (ip i remaining total_read : Nat) :
    Option (List Stream × Nat × Fd × Nat) × List Nat :=
  match remaining with
  | 0 => (some ([], ip, fd, total_read), [])
  | k + 1 =>
    match open_in_hdr fd ip i with
    | (none, log) => (none, log)
    | (some ((c, v1, v2, lh), ip', fd'), log1) =>
      let total_read := (total_read + 13) % U32
      if c ≠ CTYPE_NONE then (none, log1)
      else if v1 ≠ 0 then (none, log1)
      else if v2 ≠ 0 then (none, log1)
      else
        match open_in_loop fd' ip' (i + 1) k total_read with
        | (none, log2) => (none, log1 ++ log2)
        | (some (ss, ip'', fd'', tr), log2) =>
          (some (({ last_head := lh, buf := [], buflen := 0, bufp := 0,
                    bzip_level := 0 } : Stream) :: ss, ip'', fd'', tr),
           log1 ++ log2)

/-- `open_stream_in` (the session is calloc-zeroed, so `bufsize` and
`cur_pos` are 0 on a read session; allocation modelled as succeeding). -/
def open_stream_in (fd : Fd) (n : Nat) : Option StreamInfo :=
  match (open_in_loop fd fd.pos 0 n 0).1 with
  | none => none
  | some (ss, ip, fd', tr) =>
    some { s := ss, num_streams := n, fd := fd', bufsize := 0, cur_pos := 0,
           initial_pos := ip, total_read := tr }

/-- The stream indices at which `open_stream_in` applied the workaround
(instrumentation of the same run). -/
def open_stream_in_wlog (fd : Fd) (n : Nat) : List Nat :=
  (open_in_loop fd fd.pos 0 n 0).2

/-- `flush_buffer`: back-patch the previous header's next-offset with
`cur_pos`, move `last_head` to the next-offset slot of the header about to
be written, seek to `cur_pos`, run the compression gateway, write the
13-byte header and the `c_len` payload bytes, reset the buffer.  The
final buffer re-allocation is modelled as succeeding. -/
def flush_buffer (bz : Bzlib) (sinfo : StreamInfo) (stream : Nat) :
    Option StreamInfo := do
  let st := sinfo.s.getD stream default
  let sinfo1 := seekto sinfo st.last_head
  let fd1 ← write_u32 sinfo1.fd sinfo1.cur_pos
  let st := { st with last_head := (sinfo1.cur_pos + 9) % U32 }
  let sinfo2 := seekto { sinfo1 with fd := fd1 } sinfo1.cur_pos
  let cres := compress_buf bz st CTYPE_NONE st.buflen
  let st := cres.1
  let c_type := cres.2.1
  let c_len := cres.2.2
  let fd ← write_u8 sinfo2.fd c_type
  let fd ← write_u32 fd c_len
  let fd ← write_u32 fd st.buflen
  let fd ← write_u32 fd 0
  let cur_pos := (sinfo2.cur_pos + 13) % U32
  let fd ← write_buf fd (padTake c_len st.buf)
  let cur_pos := (cur_pos + c_len) % U32
  let st := { st with buflen := 0, buf := [] }
  return { sinfo2 with
           fd := fd, cur_pos := cur_pos
           s := sinfo2.s.set stream st }

/-- `fill_buffer`: seek to the current chunk header, read it, advance
`last_head` to the next-offset just read, account 13 + `c_len` into
`total_read`, read the `c_len` payload bytes into a buffer allocated with
`u_len` bytes, and run the decompression gateway.  The returned Bool
records whether the payload read stayed within the `u_len`-byte
allocation (`c_len ≤ u_len`) — the source performs no such check, so the
flag is instrumentation only and the call proceeds regardless. -/
def fill_buffer (bz : Bzlib) (sinfo : StreamInfo) (stream : Nat) :
    Option (StreamInfo × Bool) := do
  let st := sinfo.s.getD stream default
  let sinfo1 := seekto sinfo st.last_head
  let ((c_type, c_len, u_len, lh), fd) ← read_header sinfo1.fd
  let total_read := (sinfo1.total_read + 13) % U32
  let (payload, fd) ← read_buf fd c_len
  let inBounds := decide (c_len ≤ u_len)
  let total_read := (total_read + c_len) % U32
  let st := { st with last_head := lh, buf := payload, buflen := u_len,
                      bufp := 0 }
  let st ← decompress_buf bz st c_len c_type
  return ({ sinfo1 with
            fd := fd, total_read := total_read
            s := sinfo1.s.set stream st }, inBounds)

/-- `write_stream`: copy into the stream buffer in pieces of
`min (bufsize - buflen) len`, flushing whenever the buffer is exactly
full.  A piece of size 0 (only possible from the unreachable state
`buflen ≥ bufsize`) would make the source loop forever; it is modelled as
the failure `none`. -/
def write_stream (bz : Bzlib) (sinfo : StreamInfo) (stream : Nat)
    (p : List Nat) : Option StreamInfo :=
  if hp : p = [] then some sinfo
  else
    let st := sinfo.s.getD stream default
    let n := min (sinfo.bufsize - st.buflen) p.length
    if hn : n = 0 then none
    else
      let st := { st with buf := st.buf ++ p.take n, buflen := st.buflen + n }
      let sinfo' := { sinfo with s := sinfo.s.set stream st }
      if st.buflen = sinfo'.bufsize then
        match flush_buffer bz sinfo' stream with
        | none => none
        | some sinfo'' => write_stream bz sinfo'' stream (p.drop n)
      else write_stream bz sinfo' stream (p.drop n)
termination_by p.length
decreasing_by
  all_goals
    have hl : p.length ≠ 0 := fun h => hp (List.length_eq_zero.mp h)
    have hn2 : ¬ (min (sinfo.bufsize
        - (sinfo.s.getD stream default).buflen) p.length = 0) := hn
    simp only [List.length_drop]
    omega

/-- One buffer-availability step of the `read_stream` loop: when the read
cursor has consumed the buffer (`bufp = buflen`), fill; the Bool reports
whether the buffer is still empty afterwards (end of stream).  A state
with `bufp > buflen` (unreachable) would make the source loop forever and
is modelled as `none`. -/
def ensure_data (bz : Bzlib) (sinfo : StreamInfo) (stream : Nat) :
    Option (StreamInfo × Bool) :=
  let st := sinfo.s.getD stream default
  if st.bufp = st.buflen then
    match fill_buffer bz sinfo stream with
    | none => none
    | some (sinfo', _) =>
      let st' := sinfo'.s.getD stream default
      some (sinfo', st'.bufp == st'.buflen)
  else if st.buflen < st.bufp then none
  else some (sinfo, false)

theorem getD_set_self {α : Type} [Inhabited α] (l : List α) (i : Nat)
    (x d : α) :
    (l.set i x).getD i d = if i < l.length then x else d := by
  induction l generalizing i with
  | nil => simp [List.getD]
  | cons a t ih =>
    cases i with
    | zero => simp
    | succ j =>
      simp only [List.set_cons_succ, List.getD_cons_succ, List.length_cons]
      rw [ih j]
      simp [Nat.succ_lt_succ_iff]

theorem getD_set_ne {α : Type} [Inhabited α] (l : List α) (i j : Nat)
    (x d : α) (hij : i ≠ j) :
    (l.set i x).getD j d = l.getD j d := by
  induction l generalizing i j with
  | nil => simp
  | cons a t ih =>
    cases i with
    | zero =>
      cases j with
      | zero => exact absurd rfl hij
      | succ k => simp
    | succ i' =>
      cases j with
      | zero => simp
      | succ k =>
        simp only [List.set_cons_succ, List.getD_cons_succ]
        exact ih i' k (fun hh => hij (by rw [hh]))

theorem decompress_buf_frame {bz : Bzlib} {s : Stream} {c_len c_type : Nat}
    {s' : Stream} (h : decompress_buf bz s c_len c_type = some s') :
    s'.bufp = s.bufp ∧ s'.buflen = s.buflen ∧ s'.last_head = s.last_head ∧
      s'.bzip_level = s.bzip_level := by
  unfold decompress_buf at h
  split at h
  · simp only [Option.some.injEq] at h
    subst h
    exact ⟨rfl, rfl, rfl, rfl⟩
  · split at h
    · exact absurd h (by simp)
    · split at h
      · simp only [Option.some.injEq] at h
        subst h
        exact ⟨rfl, rfl, rfl, rfl⟩
      · exact absurd h (by simp)

theorem fill_buffer_bufp {bz : Bzlib} {sinfo : StreamInfo} {stream : Nat}
    {sinfo' : StreamInfo} {b : Bool}
    (h : fill_buffer bz sinfo stream = some (sinfo', b)) :
    (sinfo'.s.getD stream default).bufp = 0 := by
  unfold fill_buffer at h
  simp only [Option.bind_eq_bind, Option.bind_eq_some] at h
  obtain ⟨⟨⟨c_type, c_len, u_len, lh⟩, fd1⟩, hh, h⟩ := h
  obtain ⟨⟨payload, fd2⟩, hr, h⟩ := h
  obtain ⟨st2, hd, h⟩ := h
  simp only [Option.pure_def, Option.some.injEq, Prod.mk.injEq] at h
  obtain ⟨h1, -⟩ := h
  subst h1
  obtain ⟨hbp, -, -, -⟩ := decompress_buf_frame hd
  simp only
  rw [getD_set_self]
  split
  · rw [hbp]
  · rfl

theorem ensure_data_avail {bz : Bzlib} {sinfo : StreamInfo} {stream : Nat}
    {sinfo' : StreamInfo}
    (h : ensure_data bz sinfo stream = some (sinfo', false)) :
    1 ≤ (sinfo'.s.getD stream default).buflen
        - (sinfo'.s.getD stream default).bufp := by
  unfold ensure_data at h
  simp only at h
  split at h
  · cases hf : fill_buffer bz sinfo stream with
    | none =>
      rw [hf] at h
      exact absurd h (by simp)
    | some r =>
      rw [hf] at h
      obtain ⟨si1, b⟩ := r
      simp only [Option.some.injEq, Prod.mk.injEq] at h
      obtain ⟨h1, h2⟩ := h
      have hb := fill_buffer_bufp hf
      have hne : ¬ ((si1.s.getD stream default).bufp
          = (si1.s.getD stream default).buflen) := by
        intro hee
        rw [beq_iff_eq.mpr hee] at h2
        exact absurd h2 (by simp)
      rw [← h1]
      omega
  · split at h
    · exact absurd h (by simp)
    · simp only [Option.some.injEq, Prod.mk.injEq] at h
      obtain ⟨h1, -⟩ := h
      subst h1
      omega

/-- `read_stream`: copy `min (buflen - bufp) len` bytes out of the buffer,
filling it whenever it is exhausted and more bytes are wanted; stop early
(returning the bytes copied so far) exactly when a fill leaves the buffer
empty.  Returns the copied bytes (the C return value is their count). -/
def read_stream (bz : Bzlib) (sinfo : StreamInfo) (stream : Nat)
    (len : Nat) : Option (StreamInfo × List Nat) :=
  if hl : len = 0 then some (sinfo, [])
  else
    match he : ensure_data bz sinfo stream with
    | none => none
    | some (sinfo1, true) => some (sinfo1, [])
    | some (sinfo1, false) =>
      let st := sinfo1.s.getD stream default
      let n := min (st.buflen - st.bufp) len
      let out1 := padTake n (st.buf.drop st.bufp)
      let st' := { st with bufp := st.bufp + n }
      let sinfo2 := { sinfo1 with s := sinfo1.s.set stream st' }
      match read_stream bz sinfo2 stream (len - n) with
      | none => none
      | some (sinfo3, out2) => some (sinfo3, out1 ++ out2)
termination_by len
decreasing_by
  have h1 := ensure_data_avail he
  omega

/-- `close_stream_out`'s loop: flush every stream with a nonempty buffer. -/
def close_out_loop (bz : Bzlib) (sinfo : StreamInfo) (i remaining : Nat) :
    Option StreamInfo :=
  match remaining with
  | 0 => some sinfo
  | k + 1 =>
    let st := sinfo.s.getD i default
    if st.buflen ≠ 0 then
      match flush_buffer bz sinfo i with
      | none => none
      | some sinfo' => close_out_loop bz sinfo' (i + 1) k
    else close_out_loop bz sinfo (i + 1) k

/-- `close_stream_out` (the frees are not modelled; the fd survives the
session and carries the final file contents). -/
def close_stream_out (bz : Bzlib) (sinfo : StreamInfo) : Option StreamInfo :=
  close_out_loop bz sinfo 0 sinfo.num_streams

/-- `close_stream_in`: position the fd just past the last byte consumed. -/
def close_stream_in (sinfo : StreamInfo) : Option Fd :=
  some { sinfo.fd with pos := sinfo.initial_pos + sinfo.total_read }

/-- Execute a payload plan: a sequence of `(stream, bytes)` writes. -/
def runPlan (bz : Bzlib) (sinfo : StreamInfo) :
    List (Nat × List Nat) → Option StreamInfo
  | [] => some sinfo
  | (i, bs) :: rest => do
    let sinfo' ← write_stream bz sinfo i bs
    runPlan bz sinfo' rest

/-- The full write session of the round-trip scenario: open a writer on a
fresh file, execute the plan, close; the result is the file contents. -/
def writerFile (bz : Bzlib) (n lvl : Nat) (plan : List (Nat × List Nat)) :
    Option (List Nat) := do
  let si ← open_stream_out ⟨[], 0, true⟩ n lvl
  let si ← runPlan bz si plan
  let si ← close_stream_out bz si
  return si.fd.data

/-- The mirror reads of a plan: for each `(stream, bytes)` write, read
`bytes.length` bytes back from that stream, collecting the results. -/
def mirrorReads (bz : Bzlib) (sinfo : StreamInfo) :
    List (Nat × List Nat) → Option (StreamInfo × List (List Nat))
  | [] => some (sinfo, [])
  | (i, bs) :: rest => do
    let (si, out) ← read_stream bz sinfo i bs.length
    let (si, outs) ← mirrorReads bz si rest
    return (si, out :: outs)

/-- The whole round-trip: write the plan, close, reopen the resulting file
for reading, execute the mirror reads. -/
def roundTrip (bz : Bzlib) (n lvl : Nat) (plan : List (Nat × List Nat)) :
    Option (List (List Nat)) := do
  let data ← writerFile bz n lvl plan
  let si ← open_stream_in ⟨data, 0, true⟩ n
  let (_, outs) ← mirrorReads bz si plan
  return outs

/-! ### Basic facts about the byte-level primitives -/

theorem U32_eq : U32 = 4294967296 := by norm_num [U32]

theorem writeBytesAt_eq_append (data bs : List Nat) :
    writeBytesAt data data.length bs = data ++ bs := by
  simp [writeBytesAt, List.drop_eq_nil_of_le]

theorem write_buf_append {fd : Fd} (bs : List Nat) (hw : fd.writeOk = true)
    (hpos : fd.pos = fd.data.length) :
    write_buf fd bs =
      some { data := fd.data ++ bs, pos := fd.pos + bs.length,
             writeOk := true } := by
  obtain ⟨d, p, ok⟩ := fd
  simp only at hpos hw
  subst hw
  subst hpos
  simp [write_buf, writeBytesAt_eq_append]

/-- A codec that always fails; the engine then stores every chunk
uncompressed.  Trivially satisfies the codec contract. -/
def bzStub : Bzlib :=
  { bzCompress := fun _ _ _ => none
    bzDecompress := fun _ _ => none
    mallocOk := true }

theorem bzStub_codecOk : CodecOk bzStub := by
  intro cap src lvl out h
  simp [bzStub] at h

/-! ### C7: the u32 wire codec round-trips -/

/-- C7: for every 32-bit value `v`, `write_u32` serializes `v` as two
little-endian u16 halves (low half first, each half low byte first), and
`read_u32` applied to those four bytes returns exactly `v`. -/
theorem u32_wire_roundtrip (v : Nat) (fd : Fd) (hv : v < U32)
    (hw : fd.writeOk = true) (hpos : fd.pos = fd.data.length) :
    write_u32 fd v =
      some { data := fd.data ++ (u16le (v % 65536) ++ u16le (v / 65536))
             pos := fd.pos + 4
             writeOk := true } ∧
    (∀ w : Bool,
      read_u32 ⟨u16le (v % 65536) ++ u16le (v / 65536), 0, w⟩ =
        some (v, ⟨u16le (v % 65536) ++ u16le (v / 65536), 4, w⟩)) := by
  constructor
  · unfold write_u32 write_u16
    rw [write_buf_append [v % 65536 % 256, v % 65536 / 256 % 256] hw hpos]
    simp only [Option.bind_eq_bind, Option.some_bind]
    rw [write_buf_append [v / 65536 % 256, v / 65536 / 256 % 256]
      (by simp) (by simp [hpos])]
    simp [u16le, List.append_assoc]
  · intro w
    have h65536 : v / 65536 < 65536 := by
      have h2 : U32 = 65536 * 65536 := by norm_num [U32]
      omega
    simp [read_u32, read_u16, read_buf, u16le]
    omega

/-- Witness for C7 at `v = 305419896` (0x12345678). -/
theorem u32_wire_roundtrip_witness :
    305419896 < U32 ∧
      write_u32 ⟨[], 0, true⟩ 305419896 =
        some { data := [] ++ (u16le (305419896 % 65536)
                 ++ u16le (305419896 / 65536))
               pos := 0 + 4
               writeOk := true } := by
  refine ⟨by norm_num [U32], ?_⟩
  exact (u32_wire_roundtrip 305419896 ⟨[], 0, true⟩ (by norm_num [U32]) rfl
    rfl).1

/-! ### C5: the compression gateway never fails the flush -/

/-- C5: `compress_buf` leaves buffer, c_type and c_len unchanged when the
level is 0, when the allocation fails, or when the codec fails; whenever
it does replace the buffer the new `c_len` is at most `buflen - 1`
(strictly less than `buflen`) and the c_type becomes block-compressed. -/
theorem compress_buf_spec (bz : Bzlib) (s : Stream) (hc : CodecOk bz)
    (hlen : 1 ≤ s.buflen) (hbl : s.buflen < U32) :
    ((s.bzip_level = 0 ∨ bz.mallocOk = false ∨
        bz.bzCompress (s.buflen - 1) s.buf s.bzip_level = none) →
      compress_buf bz s CTYPE_NONE s.buflen = (s, CTYPE_NONE, s.buflen)) ∧
    (∀ s' ct cl,
      compress_buf bz s CTYPE_NONE s.buflen = (s', ct, cl) →
      (s' = s ∧ ct = CTYPE_NONE ∧ cl = s.buflen) ∨
      (∃ out, bz.bzCompress (s.buflen - 1) s.buf s.bzip_level = some out ∧
        s' = { s with buf := out } ∧ ct = CTYPE_BZIP2 ∧ cl = out.length ∧
        cl ≤ s.buflen - 1 ∧ cl < s.buflen)) := by
  have hdlen : (s.buflen + (U32 - 1)) % U32 = s.buflen - 1 := by
    rw [U32_eq] at hbl ⊢
    omega
  constructor
  · intro hcase
    unfold compress_buf
    rw [hdlen]
    by_cases h0 : s.bzip_level = 0
    · rw [if_pos h0]
    · rw [if_neg h0]
      by_cases hm : bz.mallocOk = false
      · rw [if_pos hm]
      · rw [if_neg hm]
        rcases hcase with h0' | hm' | hcf
        · exact absurd h0' h0
        · exact absurd hm' hm
        · rw [hcf]
  · intro s' ct cl h
    unfold compress_buf at h
    rw [hdlen] at h
    by_cases h0 : s.bzip_level = 0
    · rw [if_pos h0] at h
      left
      simp only [Prod.mk.injEq] at h
      exact ⟨h.1.symm, h.2.1.symm, h.2.2.symm⟩
    · rw [if_neg h0] at h
      by_cases hm : bz.mallocOk = false
      · rw [if_pos hm] at h
        left
        simp only [Prod.mk.injEq] at h
        exact ⟨h.1.symm, h.2.1.symm, h.2.2.symm⟩
      · rw [if_neg hm] at h
        cases hcz : bz.bzCompress (s.buflen - 1) s.buf s.bzip_level with
        | none =>
          rw [hcz] at h
          left
          simp only [Prod.mk.injEq] at h
          exact ⟨h.1.symm, h.2.1.symm, h.2.2.symm⟩
        | some out =>
          rw [hcz] at h
          right
          refine ⟨out, rfl, ?_⟩
          have hfit : out.length ≤ s.buflen - 1 := (hc _ _ _ _ hcz).1
          have hmod : out.length % U32 = out.length := by
            rw [U32_eq] at hbl ⊢
            omega
          simp only [Prod.mk.injEq] at h
          rw [hmod] at h
          refine ⟨h.1.symm, h.2.1.symm, h.2.2.symm, ?_, ?_⟩
          · rw [← h.2.2]
            exact hfit
          · rw [← h.2.2]
            omega

/-- Witness for C5: a 2-byte buffer at level 0 is left unchanged. -/
theorem compress_buf_spec_witness :
    CodecOk bzStub ∧
      compress_buf bzStub
        { last_head := 0, buf := [7, 8], buflen := 2, bufp := 0,
          bzip_level := 0 } CTYPE_NONE 2 =
      ({ last_head := 0, buf := [7, 8], buflen := 2, bufp := 0,
         bzip_level := 0 }, CTYPE_NONE, 2) := by
  refine ⟨bzStub_codecOk, ?_⟩
  exact (compress_buf_spec bzStub
    { last_head := 0, buf := [7, 8], buflen := 2, bufp := 0, bzip_level := 0 }
    bzStub_codecOk (by norm_num) (by norm_num [U32])).1 (Or.inl rfl)

/-! ### C2: `fill_buffer` does not check `c_len` against `u_len` -/

/-- The read session of the C2 scenario: a chunk header declaring
`c_len = 5` but `u_len = 2` (so the 5-byte payload read overruns the
2-byte allocation), followed by 5 payload bytes. -/
def c2_sinfo : StreamInfo :=
  { s := [{ last_head := 0, buf := [], buflen := 0, bufp := 0,
            bzip_level := 0 }]
    num_streams := 1
    fd := ⟨[3, 5, 0, 0, 0, 2, 0, 0, 0, 0, 0, 0, 0, 9, 9, 9, 9, 9], 0, true⟩
    bufsize := 0, cur_pos := 0, initial_pos := 0, total_read := 0 }

/-- C2: `fill_buffer` allocates `u_len` bytes but reads `c_len` bytes into
that buffer with no check that `c_len ≤ u_len`: on a file whose chunk
header declares `c_len = 5 > 2 = u_len` the fill proceeds (and succeeds)
with the payload read landing outside the allocation — the in-bounds flag
of the embedding is `false`. -/
theorem fill_buffer_unchecked_overflow :
    (fill_buffer bzStub c2_sinfo 0).map Prod.snd = some false := by
  simp [fill_buffer, c2_sinfo, seekto, read_header, read_u8, read_u16,
    read_u32, read_buf, decompress_buf, bzStub, CTYPE_NONE]

/-! ### C10: `open_stream_out` ignores header write failures -/

theorem initHeaderLoop_write_failure {fd : Fd} (hw : fd.writeOk = false) :
    ∀ count cp lvl, cp < U32 →
      ∃ ss, initHeaderLoop fd cp count lvl = (fd, (cp + 13 * count) % U32, ss) := by
  have hfail8 : ∀ v, (write_u8 fd v).getD fd = fd := by
    intro v
    simp [write_u8, write_buf, hw]
  have hfail32 : ∀ v, (write_u32 fd v).getD fd = fd := by
    intro v
    simp [write_u32, write_u16, write_buf, hw]
  intro count
  induction count with
  | zero =>
    intro cp lvl hcp
    refine ⟨[], ?_⟩
    simp [initHeaderLoop, Nat.mod_eq_of_lt hcp]
  | succ k ih =>
    intro cp lvl hcp
    obtain ⟨ss, hss⟩ := ih ((cp + 13) % U32) lvl
      (Nat.mod_lt _ (by rw [U32_eq]; norm_num))
    refine ⟨({ last_head := (cp + 9) % U32, buf := [], buflen := 0
               bufp := 0, bzip_level := lvl } : Stream) :: ss, ?_⟩
    have harith : ((cp + 13) % U32 + 13 * k) % U32
        = (cp + 13 * (k + 1)) % U32 := by
      rw [Nat.mod_add_mod]
      ring_nf
    unfold initHeaderLoop
    simp only [hfail8, hfail32, hss, harith]

/-- C10: `open_stream_out` ignores the return values of the `write_u8` and
`write_u32` calls emitting the N placeholder headers: even when every one
of those writes fails at the file descriptor, it still advances `cur_pos`
by 13 per stream and returns a session (the fd left exactly as it was)
instead of reporting the failure. -/
theorem open_stream_out_ignores_failed_writes (fd : Fd) (n lvl : Nat)
    (hw : fd.writeOk = false) :
    ∃ si, open_stream_out fd n lvl = some si ∧
      si.cur_pos = (13 * n) % U32 ∧ si.fd = fd := by
  obtain ⟨ss, hss⟩ := initHeaderLoop_write_failure hw n 0 lvl
    (by rw [U32_eq]; norm_num)
  refine ⟨{ s := ss, num_streams := n, fd := fd
            bufsize := if lvl = 0 then 100 * 1024 else 100 * 1024 * lvl
            cur_pos := (0 + 13 * n) % U32, initial_pos := fd.pos
            total_read := 0 }, ?_, by simp, rfl⟩
  unfold open_stream_out
  rw [hss]

/-! ### C6: `flush_buffer` post-state -/

theorem compress_buf_frame (bz : Bzlib) (s : Stream) (ct cl : Nat) :
    (compress_buf bz s ct cl).1.last_head = s.last_head ∧
    (compress_buf bz s ct cl).1.buflen = s.buflen ∧
    (compress_buf bz s ct cl).1.bufp = s.bufp ∧
    (compress_buf bz s ct cl).1.bzip_level = s.bzip_level := by
  unfold compress_buf
  split
  · exact ⟨rfl, rfl, rfl, rfl⟩
  · split
    · exact ⟨rfl, rfl, rfl, rfl⟩
    · cases hcz : bz.bzCompress ((s.buflen + (U32 - 1)) % U32) s.buf
        s.bzip_level with
      | none => simp [hcz]
      | some out => simp [hcz]

/-- The `c_len` that a flush of stream `stream` will emit: the result of
running the compression gateway on the stream's buffer (with `last_head`
already moved, as `flush_buffer` does before compressing). -/
def flushedCLen (bz : Bzlib) (si : StreamInfo) (stream : Nat) : Nat :=
  (compress_buf bz
    { si.s.getD stream default with last_head := (si.cur_pos + 9) % U32 }
    CTYPE_NONE (si.s.getD stream default).buflen).2.2

/-- C6: after a successful `flush_buffer` on a stream, the stream's
`last_head` equals the pre-flush `cur_pos + 9` (computed from `cur_pos`
before it is advanced), `cur_pos` has advanced by exactly `13 + c_len`
(the emitted on-disk payload length), and the stream's `buflen` is 0. -/
theorem flush_buffer_postconditions (bz : Bzlib) (si : StreamInfo)
    (stream : Nat) (si' : StreamInfo) (hlt : stream < si.s.length)
    (h : flush_buffer bz si stream = some si')
    (hcur : si.cur_pos + 13 + flushedCLen bz si stream < U32) :
    (si'.s.getD stream default).last_head = si.cur_pos + 9 ∧
    si'.cur_pos = si.cur_pos + 13 + flushedCLen bz si stream ∧
    (si'.s.getD stream default).buflen = 0 := by
  unfold flush_buffer at h
  simp only [Option.bind_eq_bind, Option.bind_eq_some, seekto] at h
  obtain ⟨fd1, h1, h⟩ := h
  obtain ⟨fd2, h2, h⟩ := h
  obtain ⟨fd3, h3, h⟩ := h
  obtain ⟨fd4, h4, h⟩ := h
  obtain ⟨fd5, h5, h⟩ := h
  obtain ⟨fd6, h6, h⟩ := h
  simp only [Option.pure_def, Option.some.injEq] at h
  subst h
  have hframe := compress_buf_frame bz
    { si.s.getD stream default with last_head := (si.cur_pos + 9) % U32 }
    CTYPE_NONE (si.s.getD stream default).buflen
  have hmod9 : (si.cur_pos + 9) % U32 = si.cur_pos + 9 := by
    rw [U32_eq] at hcur ⊢
    omega
  have hmod13 : (si.cur_pos + 13) % U32 = si.cur_pos + 13 := by
    rw [U32_eq] at hcur ⊢
    omega
  have hmodc : (si.cur_pos + 13 + flushedCLen bz si stream) % U32
      = si.cur_pos + 13 + flushedCLen bz si stream := by
    rw [U32_eq] at hcur ⊢
    omega
  refine ⟨?_, ?_, ?_⟩
  · rw [getD_set_self]
    rw [if_pos hlt]
    simp only
    rw [hframe.1, hmod9]
  · show ((si.cur_pos + 13) % U32 + flushedCLen bz si stream) % U32
      = si.cur_pos + 13 + flushedCLen bz si stream
    rw [hmod13, hmodc]
  · rw [getD_set_self]
    rw [if_pos hlt]

/-- The write session of the C6 witness: one stream holding one pending
byte at level 0, right after the initial header. -/
def c6_si : StreamInfo :=
  { s := [{ last_head := 9, buf := [5], buflen := 1, bufp := 0,
            bzip_level := 0 }]
    num_streams := 1
    fd := ⟨[3, 0, 0, 0, 0, 0, 0, 0, 0, 0, 0, 0, 0], 13, true⟩
    bufsize := 102400, cur_pos := 13, initial_pos := 0, total_read := 0 }

/-- The state `flush_buffer` produces from `c6_si`. -/
def c6_si' : StreamInfo :=
  { s := [{ last_head := 22, buf := [], buflen := 0, bufp := 0,
            bzip_level := 0 }]
    num_streams := 1
    fd := ⟨[3, 0, 0, 0, 0, 0, 0, 0, 0, 13, 0, 0, 0,
            3, 1, 0, 0, 0, 1, 0, 0, 0, 0, 0, 0, 0, 5], 27, true⟩
    bufsize := 102400, cur_pos := 27, initial_pos := 0, total_read := 0 }

/-- Witness for C6: a concrete successful flush. -/
theorem flush_buffer_postconditions_witness :
    0 < c6_si.s.length ∧ flush_buffer bzStub c6_si 0 = some c6_si' ∧
      c6_si.cur_pos + 13 + flushedCLen bzStub c6_si 0 < U32 ∧
      ((c6_si'.s.getD 0 default).last_head = c6_si.cur_pos + 9 ∧
        c6_si'.cur_pos = c6_si.cur_pos + 13 + flushedCLen bzStub c6_si 0 ∧
        (c6_si'.s.getD 0 default).buflen = 0) := by
  have hf : flush_buffer bzStub c6_si 0 = some c6_si' := by decide
  exact ⟨by decide, hf, by decide,
    flush_buffer_postconditions bzStub c6_si 0 c6_si' (by decide) hf
      (by decide)⟩

/-! ### C4: a short `read_stream` return means end-of-stream -/

theorem padTake_length (n : Nat) (l : List Nat) : (padTake n l).length = n := by
  simp only [padTake, List.length_append, List.length_take,
    List.length_replicate]
  omega

theorem ensure_data_eos {bz : Bzlib} {sinfo : StreamInfo} {stream : Nat}
    {sinfo1 : StreamInfo}
    (h : ensure_data bz sinfo stream = some (sinfo1, true)) :
    (sinfo1.s.getD stream default).buflen = 0 ∧
      (sinfo1.s.getD stream default).bufp = 0 := by
  unfold ensure_data at h
  simp only at h
  split at h
  · cases hf : fill_buffer bz sinfo stream with
    | none =>
      rw [hf] at h
      exact absurd h (by simp)
    | some r =>
      rw [hf] at h
      obtain ⟨si2, b⟩ := r
      simp only [Option.some.injEq, Prod.mk.injEq] at h
      obtain ⟨h1, h2⟩ := h
      have hb := fill_buffer_bufp hf
      have heq : (si2.s.getD stream default).bufp
          = (si2.s.getD stream default).buflen := by simpa using h2
      rw [← h1]
      omega
  · split at h
    · exact absurd h (by simp)
    · simp only [Option.some.injEq, Prod.mk.injEq] at h
      exact absurd h.2 (by simp)

/-- C4: `read_stream` returns fewer bytes than requested only at
end-of-stream — the final state has an empty buffer (`buflen = 0`,
`bufp = 0`, the state a fill of the terminal chunk leaves); returning the
bytes copied so far.  Any error path returns `none` (the C return −1),
discarding all partial progress of the call. -/
theorem read_stream_short_return_is_eos (bz : Bzlib) (si : StreamInfo)
    (stream len : Nat) (si' : StreamInfo) (out : List Nat)
    (h : read_stream bz si stream len = some (si', out))
    (hshort : out.length < len) :
    (si'.s.getD stream default).buflen = 0 ∧
      (si'.s.getD stream default).bufp = 0 := by
  induction len using Nat.strong_induction_on generalizing si si' out with
  | _ len IH =>
  unfold read_stream at h
  split at h
  · simp only [Option.some.injEq, Prod.mk.injEq] at h
    obtain ⟨-, h2⟩ := h
    subst h2
    simp only [List.length_nil] at hshort
    omega
  · split at h
    · exact absurd h (by simp)
    · next si1 he =>
      simp only [Option.some.injEq, Prod.mk.injEq] at h
      obtain ⟨h1, h2⟩ := h
      subst h1
      exact ensure_data_eos he
    · next si1 he =>
      simp only at h
      split at h
      · exact absurd h (by simp)
      · next si3 out2 hrec =>
        simp only [Option.some.injEq, Prod.mk.injEq] at h
        obtain ⟨h1, h2⟩ := h
        subst h1
        have havail := ensure_data_avail he
        refine IH _ ?_ _ _ _ hrec ?_
        · omega
        · rw [← h2] at hshort
          simp only [List.length_append, padTake_length] at hshort
          omega

/-- The read session of the C4 witness: a single stream whose chain is the
terminal chunk (`u_len = 0`, `next_head = 0`). -/
def c4_si : StreamInfo :=
  { s := [{ last_head := 0, buf := [], buflen := 0, bufp := 0,
            bzip_level := 0 }]
    num_streams := 1
    fd := ⟨[3, 0, 0, 0, 0, 0, 0, 0, 0, 0, 0, 0, 0], 0, true⟩
    bufsize := 0, cur_pos := 0, initial_pos := 0, total_read := 0 }

/-- The state after the C4 witness read. -/
def c4_si' : StreamInfo :=
  { s := [{ last_head := 0, buf := [], buflen := 0, bufp := 0,
            bzip_level := 0 }]
    num_streams := 1
    fd := ⟨[3, 0, 0, 0, 0, 0, 0, 0, 0, 0, 0, 0, 0], 13, true⟩
    bufsize := 0, cur_pos := 0, initial_pos := 0, total_read := 13 }

/-- Witness for C4: asking 10 bytes of an empty stream returns 0 bytes. -/
theorem read_stream_short_return_is_eos_witness :
    read_stream bzStub c4_si 0 10 = some (c4_si', []) ∧
      (0 < 10 ∧ ((c4_si'.s.getD 0 default).buflen = 0 ∧
        (c4_si'.s.getD 0 default).bufp = 0)) := by
  have h : read_stream bzStub c4_si 0 10 = some (c4_si', []) := by
    rw [read_stream]
    simp [ensure_data, fill_buffer, seekto, read_header, read_u8, read_u16,
      read_u32, read_buf, decompress_buf, padTake, bzStub, CTYPE_NONE,
      c4_si, c4_si', U32_eq]
  refine ⟨h, by norm_num, read_stream_short_return_is_eos bzStub c4_si 0 10
    c4_si' [] h (by norm_num)⟩

/-! ### C3: where and how often the sentinel workaround fires -/

theorem open_in_hdr_log_entries (fd : Fd) (ip i : Nat) :
    ∀ x ∈ (open_in_hdr fd ip i).2, x = i := by
  induction fd, ip, i using open_in_hdr.induct with
  | case1 f p j hh =>
    intro x hx
    rw [open_in_hdr] at hx
    split at hx
    · simp at hx
    · next heq =>
      rw [hh] at heq
      cases heq
  | case2 f p j c v1 v2 lh fd' hh hcond ih =>
    intro x hx
    rw [open_in_hdr] at hx
    split at hx
    · next heq =>
      rw [hh] at heq
      cases heq
    · next c' v1' v2' lh' fd'' heq =>
      rw [hh] at heq
      simp only [Option.some.injEq, Prod.mk.injEq] at heq
      obtain ⟨⟨hc, hv1, hv2, hlh⟩, hfd⟩ := heq
      subst hc hv1 hv2 hlh hfd
      rw [if_pos hcond] at hx
      simp only [List.mem_cons] at hx
      rcases hx with h1 | h2
      · exact h1
      · exact ih x h2
  | case3 f p j c v1 v2 lh fd' hh hcond =>
    intro x hx
    rw [open_in_hdr] at hx
    split at hx
    · next heq =>
      rw [hh] at heq
      cases heq
    · next c' v1' v2' lh' fd'' heq =>
      rw [hh] at heq
      simp only [Option.some.injEq, Prod.mk.injEq] at heq
      obtain ⟨⟨hc, hv1, hv2, hlh⟩, hfd⟩ := heq
      subst hc hv1 hv2 hlh hfd
      rw [if_neg hcond] at hx
      simp at hx

theorem open_in_hdr_log_nil (fd : Fd) (ip i : Nat) (hi : i ≠ 0) :
    (open_in_hdr fd ip i).2 = [] := by
  rw [open_in_hdr]
  split
  · rfl
  · split
    · next hcond => exact absurd hcond.2.2.2.2 hi
    · rfl

theorem open_in_hdr_mem_zero (fd : Fd) (ip i : Nat) :
    ∀ x ∈ (open_in_hdr fd ip i).2, x = 0 := by
  intro x hx
  by_cases hi : i = 0
  · exact (open_in_hdr_log_entries fd ip i x hx).trans hi
  · rw [open_in_hdr_log_nil fd ip i hi] at hx
    simp at hx

theorem open_in_loop_log_zero (remaining : Nat) :
    ∀ fd ip i total_read x,
      x ∈ (open_in_loop fd ip i remaining total_read).2 → x = 0 := by
  induction remaining with
  | zero =>
    intro fd ip i tr x hx
    simp [open_in_loop] at hx
  | succ k ih =>
    intro fd ip i tr x hx
    rw [open_in_loop] at hx
    split at hx
    · next log heq =>
      have : log = (open_in_hdr fd ip i).2 := by rw [heq]
      rw [this] at hx
      exact open_in_hdr_mem_zero fd ip i x hx
    · next c v1 v2 lh ip' fd' log1 heq =>
      have hlog1 : ∀ y ∈ log1, y = 0 := by
        intro y hy
        have : log1 = (open_in_hdr fd ip i).2 := by rw [heq]
        rw [this] at hy
        exact open_in_hdr_mem_zero fd ip i y hy
      simp only at hx
      split at hx
      · exact hlog1 x hx
      · split at hx
        · exact hlog1 x hx
        · split at hx
          · exact hlog1 x hx
          · split at hx
            · next heq2 =>
              simp only [List.mem_append] at hx
              rcases hx with h1 | h2
              · exact hlog1 x h1
              · have h2' : x ∈ (open_in_loop fd' ip' (i + 1) k
                    ((tr + 13) % U32)).2 := by
                  rw [heq2]
                  exact h2
                exact ih fd' ip' (i + 1) _ x h2'
            · next heq2 =>
              simp only [List.mem_append] at hx
              rcases hx with h1 | h2
              · exact hlog1 x h1
              · have h2' : x ∈ (open_in_loop fd' ip' (i + 1) k
                    ((tr + 13) % U32)).2 := by
                  rw [heq2]
                  exact h2
                exact ih fd' ip' (i + 1) _ x h2'

/-- C3 (amended): every application of the legacy-sentinel workaround in a
session happens while reading the header of stream index 0 — it is never
applied to streams 1..N−1 — but it is not limited to a single application:
it repeats once per consecutive sentinel header. -/
theorem open_stream_in_workaround_only_stream0 (fd : Fd) (n : Nat) :
    ∀ x ∈ open_stream_in_wlog fd n, x = 0 := by
  intro x hx
  exact open_in_loop_log_zero n fd fd.pos 0 0 x hx

/-- A file beginning with two sentinel headers `(3,0,0,0,0)` followed by a
valid initial header whose next offset is 13. -/
def c3_file : List Nat :=
  [3, 0, 0, 0, 0, 0, 0, 0, 0, 0, 0, 0, 0]
    ++ [3, 0, 0, 0, 0, 0, 0, 0, 0, 0, 0, 0, 0]
    ++ [3, 0, 0, 0, 0, 0, 0, 0, 0, 13, 0, 0, 0]

/-- C3 counterexample: on `c3_file`, `open_stream_in` succeeds after
applying the workaround twice in the same session (both times on stream
0), contradicting "applied at most once per session … never a second time
on stream 0". -/
theorem c3_counterexample :
    open_stream_in_wlog ⟨c3_file, 0, true⟩ 1 = [0, 0] ∧
      (open_stream_in ⟨c3_file, 0, true⟩ 1).isSome = true := by
  constructor
  · simp [open_stream_in_wlog, open_in_loop, open_in_hdr, read_header,
      read_u8, read_u16, read_u32, read_buf, CTYPE_NONE, c3_file, U32_eq]
  · simp [open_stream_in, open_in_loop, open_in_hdr, read_header,
      read_u8, read_u16, read_u32, read_buf, CTYPE_NONE, c3_file, U32_eq]

/-- Witness for the amended C3 on the two-sentinel file. -/
theorem open_stream_in_workaround_only_stream0_witness :
    0 ∈ open_stream_in_wlog ⟨c3_file, 0, true⟩ 1 ∧ 0 = 0 := by
  have hm : 0 ∈ open_stream_in_wlog ⟨c3_file, 0, true⟩ 1 := by
    have : open_stream_in_wlog ⟨c3_file, 0, true⟩ 1 = [0, 0] := by
      simp [open_stream_in_wlog, open_in_loop, open_in_hdr, read_header,
        read_u8, read_u16, read_u32, read_buf, CTYPE_NONE, c3_file, U32_eq]
    rw [this]
    simp
  exact ⟨hm, open_stream_in_workaround_only_stream0 ⟨c3_file, 0, true⟩ 1 0 hm⟩

/-! ### C9: a never-written stream set cannot be reopened -/

/-- The file produced by opening a 1-stream writer and closing it without
writing: the single placeholder header. -/
def c9_file : List Nat := [3, 0, 0, 0, 0, 0, 0, 0, 0, 0, 0, 0, 0]

/-- C9 counterexample: with N = 1 and level 0, opening a writer, writing
nothing and closing yields `c9_file`; reopening it with `open_stream_in`
returns null — `read_stream` can never be called, so the scenario does not
return 0. -/
theorem c9_counterexample :
    writerFile bzStub 1 0 [] = some c9_file ∧
      open_stream_in ⟨c9_file, 0, true⟩ 1 = none := by
  constructor
  · decide
  · simp [open_stream_in, open_in_loop, open_in_hdr, read_header, read_u8,
      read_u16, read_u32, read_buf, CTYPE_NONE, c9_file]

/-- C9 (amended): the empty 1-stream writer emits exactly the placeholder
header `(3,0,0,0,0)`; on reopen that legitimate empty-stream header
triggers the sentinel workaround (log `[0]`), the retry hits end-of-file,
`open_stream_in` fails, and the whole round-trip pipeline returns an error
instead of a 0-byte read. -/
theorem c9_empty_writer_open_fails :
    writerFile bzStub 1 0 [] = some c9_file ∧
      open_stream_in_wlog ⟨c9_file, 0, true⟩ 1 = [0] ∧
      roundTrip bzStub 1 0 [] = none := by
  have h1 : writerFile bzStub 1 0 [] = some c9_file := by decide
  have h2 : open_stream_in ⟨c9_file, 0, true⟩ 1 = none := by
    simp [open_stream_in, open_in_loop, open_in_hdr, read_header, read_u8,
      read_u16, read_u32, read_buf, CTYPE_NONE, c9_file]
  refine ⟨h1, ?_, ?_⟩
  · simp [open_stream_in_wlog, open_in_loop, open_in_hdr, read_header,
      read_u8, read_u16, read_u32, read_buf, CTYPE_NONE, c9_file]
  · simp [roundTrip, h1, h2]

/-! ### C8: what a successful `open_stream_in` guarantees -/

theorem Fd_ext {fd : Fd} {d : List Nat} {p : Nat} {w : Bool}
    (h1 : fd.data = d) (h2 : fd.pos = p) (h3 : fd.writeOk = w) :
    fd = ⟨d, p, w⟩ := by
  cases fd
  simp only at h1 h2 h3
  rw [h1, h2, h3]

theorem open_in_hdr_succ : ∀ (fd : Fd) (ip i : Nat),
    ∀ (delta : Nat) (h4 : Nat × Nat × Nat × Nat) (ip' : Nat) (fd' : Fd),
      (open_in_hdr fd ip i).1 = some (h4, ip', fd') →
      fd.pos = ip + delta →
      fd'.data = fd.data ∧ fd'.writeOk = fd.writeOk ∧
        fd'.pos = ip' + delta + 13 ∧ (i ≠ 0 → ip' = ip) ∧
        read_header ⟨fd.data, ip' + delta, fd.writeOk⟩ = some (h4, fd') := by
  intro fd ip i
  induction fd, ip, i using open_in_hdr.induct with
  | case1 f p j hh =>
    intro delta h4 ip' fd' h hip
    rw [open_in_hdr] at h
    split at h
    · cases h
    · next heq =>
      rw [hh] at heq
      cases heq
  | case2 f p j c v1 v2 lh fd1 hh hcond ih =>
    intro delta h4 ip' fd' h hip
    rw [open_in_hdr] at h
    split at h
    · next heq =>
      rw [hh] at heq
      cases heq
    · next c' v1' v2' lh' fd1' heq =>
      rw [hh] at heq
      simp only [Option.some.injEq, Prod.mk.injEq] at heq
      obtain ⟨⟨hc, hv1, hv2, hlh⟩, hfd⟩ := heq
      subst hc hv1 hv2 hlh hfd
      rw [if_pos hcond] at h
      simp only at h
      obtain ⟨hdata, hposf, -, hok⟩ := read_header_facts hh
      have hip1 : fd1.pos = (p + 13) + delta := by
        rw [hposf, hip]
        ring
      obtain ⟨a, b, c2, -, e⟩ := ih delta h4 ip' fd' h hip1
      rw [hdata] at a e
      rw [hok] at b e
      exact ⟨a, b, c2, fun hj => absurd hcond.2.2.2.2 hj, e⟩
  | case3 f p j c v1 v2 lh fd1 hh hcond =>
    intro delta h4 ip' fd' h hip
    rw [open_in_hdr] at h
    split at h
    · next heq =>
      rw [hh] at heq
      cases heq
    · next c' v1' v2' lh' fd1' heq =>
      rw [hh] at heq
      simp only [Option.some.injEq, Prod.mk.injEq] at heq
      obtain ⟨⟨hc, hv1, hv2, hlh⟩, hfd⟩ := heq
      subst hc hv1 hv2 hlh hfd
      rw [if_neg hcond] at h
      simp only [Option.some.injEq, Prod.mk.injEq] at h
      obtain ⟨hh4, hips, hfds⟩ := h
      subst hh4 hips hfds
      obtain ⟨hdata, hposf, -, hok⟩ := read_header_facts hh
      have hfeta : (⟨f.data, p + delta, f.writeOk⟩ : Fd) = f :=
        (Fd_ext rfl hip rfl).symm
      refine ⟨hdata, hok, ?_, fun _ => rfl, ?_⟩
      · rw [hposf, hip]
      · rw [hfeta]
        exact hh

theorem open_in_loop_succ :
    ∀ (k : Nat) (fd : Fd) (ip i tr : Nat) (ss : List Stream) (ipF : Nat)
      (fdF : Fd) (trF : Nat),
      (open_in_loop fd ip i k tr).1 = some (ss, ipF, fdF, trF) →
      fd.pos = ip + 13 * i →
      tr < U32 →
      fdF.data = fd.data ∧ fdF.writeOk = fd.writeOk ∧
        trF = (tr + 13 * k) % U32 ∧ ss.length = k ∧
        fdF.pos = ipF + 13 * (i + k) ∧ (i ≠ 0 → ipF = ip) ∧
        (∀ j, j < k →
          read_header ⟨fd.data, ipF + 13 * (i + j), fd.writeOk⟩ =
            some ((CTYPE_NONE, 0, 0, (ss.getD j default).last_head),
                  ⟨fd.data, ipF + 13 * (i + j) + 13, fd.writeOk⟩) ∧
          (ss.getD j default).buf = [] ∧ (ss.getD j default).buflen = 0 ∧
          (ss.getD j default).bufp = 0 ∧
          (ss.getD j default).bzip_level = 0) := by
  intro k
  induction k with
  | zero =>
    intro fd ip i tr ss ipF fdF trF h hpos htr
    rw [open_in_loop] at h
    simp only [Option.some.injEq, Prod.mk.injEq] at h
    obtain ⟨h1, h2, h3, h4⟩ := h
    subst h1 h2 h3 h4
    refine ⟨rfl, rfl, ?_, rfl, by simpa using hpos, fun _ => rfl, ?_⟩
    · rw [Nat.mul_zero, Nat.add_zero, Nat.mod_eq_of_lt htr]
    · intro j hj
      omega
  | succ k ih =>
    intro fd ip i tr ss ipF fdF trF h hpos htr
    rw [open_in_loop] at h
    obtain ⟨⟨o, log1⟩, hhdr⟩ : ∃ x, open_in_hdr fd ip i = x := ⟨_, rfl⟩
    rw [hhdr] at h
    cases o with
    | none => simp at h
    | some v =>
      obtain ⟨⟨c, v1, v2, lh⟩, ip1, fd1⟩ := v
      simp only at h
      by_cases hc : c ≠ CTYPE_NONE
      · rw [if_pos hc] at h
        simp at h
      · rw [if_neg hc] at h
        by_cases hv1c : v1 ≠ 0
        · rw [if_pos hv1c] at h
          simp at h
        · rw [if_neg hv1c] at h
          by_cases hv2c : v2 ≠ 0
          · rw [if_pos hv2c] at h
            simp at h
          · rw [if_neg hv2c] at h
            have hc3 : c = CTYPE_NONE := not_not.mp hc
            have hv10 : v1 = 0 := not_not.mp hv1c
            have hv20 : v2 = 0 := not_not.mp hv2c
            subst hc3 hv10 hv20
            obtain ⟨⟨o2, log2⟩, hloop⟩ :
                ∃ x, open_in_loop fd1 ip1 (i + 1) k ((tr + 13) % U32) = x :=
              ⟨_, rfl⟩
            rw [hloop] at h
            cases o2 with
            | none => simp at h
            | some q =>
              obtain ⟨ss2, ip2, fd2, tr2⟩ := q
              simp only [Option.some.injEq, Prod.mk.injEq] at h
              obtain ⟨hss, hip2, hfd2, htr2⟩ := h
              subst hss
              subst hip2
              subst hfd2
              subst htr2
              have hhdr1 : (open_in_hdr fd ip i).1
                  = some ((CTYPE_NONE, 0, 0, lh), ip1, fd1) := by
                rw [hhdr]
              obtain ⟨hdata1, hok1, hpos1, hipne, hread1⟩ :=
                open_in_hdr_succ fd ip i (13 * i) (CTYPE_NONE, 0, 0, lh)
                  ip1 fd1 hhdr1 hpos
              obtain ⟨hdataF, hokF, htrF2, hlen, hposF, hipF2, hdrs⟩ :=
                ih fd1 ip1 (i + 1) ((tr + 13) % U32) ss2 ip2 fd2 tr2
                  (by rw [hloop]) (by rw [hpos1]; ring)
                  (Nat.mod_lt _ (by rw [U32_eq]; norm_num))
              have hip21 : ip2 = ip1 := hipF2 (Nat.succ_ne_zero i)
              refine ⟨hdataF.trans hdata1, hokF.trans hok1, ?_, ?_, ?_, ?_, ?_⟩
              · rw [htrF2, Nat.mod_add_mod]
                congr 1
                ring
              · simp [hlen]
              · rw [hposF]
                ring
              · intro hi0
                rw [hip21]
                exact hipne hi0
              · intro j hj
                cases j with
                | zero =>
                  have hposj : ip2 + 13 * (i + 0) = ip1 + 13 * i := by
                    rw [hip21]
                    ring
                  have hfd1e : fd1 = ⟨fd.data, ip1 + 13 * i + 13,
                      fd.writeOk⟩ := by
                    refine Fd_ext hdata1 ?_ hok1
                    rw [hpos1]
                  refine ⟨?_, rfl, rfl, rfl, rfl⟩
                  simp only [List.getD_cons_zero]
                  rw [hposj, ← hfd1e]
                  exact hread1
                | succ j' =>
                  have hj' : j' < k := by omega
                  obtain ⟨hr, hb1, hb2, hb3, hb4⟩ := hdrs j' hj'
                  rw [hdata1, hok1] at hr
                  have hposj : ip2 + 13 * (i + (j' + 1))
                      = ip2 + 13 * ((i + 1) + j') := by ring
                  rw [hposj]
                  simp only [List.getD_cons_succ]
                  exact ⟨hr, hb1, hb2, hb3, hb4⟩

/-- C8: a successful `open_stream_in` has validated every one of the N
initial headers — each decodes, at the final `initial_pos + 13·i`, to
`c_type = 3`, `c_len = 0`, `u_len = 0` with its next-offset recorded as
the stream's `last_head` (any other field values make the open return
null) — and `total_read` has advanced by exactly 13 per real header
(13·N in all; skipped sentinel headers are not counted). -/
theorem open_stream_in_validates (fd : Fd) (n : Nat) (si : StreamInfo)
    (h : open_stream_in fd n = some si) :
    si.total_read = (13 * n) % U32 ∧ si.s.length = n ∧
      ∀ i, i < n →
        read_header ⟨fd.data, si.initial_pos + 13 * i, fd.writeOk⟩ =
          some ((CTYPE_NONE, 0, 0, (si.s.getD i default).last_head),
                ⟨fd.data, si.initial_pos + 13 * i + 13, fd.writeOk⟩) := by
  unfold open_stream_in at h
  split at h
  · cases h
  · next ss ipF fdF trF heq =>
    simp only [Option.some.injEq] at h
    subst h
    obtain ⟨-, -, htr, hlen, -, -, hdrs⟩ :=
      open_in_loop_succ n fd fd.pos 0 0 ss ipF fdF trF heq (by ring)
        (by rw [U32_eq]; norm_num)
    refine ⟨by simpa using htr, hlen, ?_⟩
    intro i hi
    have := (hdrs i hi).1
    simpa using this

/-- A valid single-stream file: one initial header `(3,0,0,next=13)`. -/
def c8_file : List Nat := [3, 0, 0, 0, 0, 0, 0, 0, 0, 13, 0, 0, 0]

/-- The session `open_stream_in` builds from `c8_file`. -/
def c8_si : StreamInfo :=
  { s := [{ last_head := 13, buf := [], buflen := 0, bufp := 0,
            bzip_level := 0 }]
    num_streams := 1
    fd := ⟨c8_file, 13, true⟩
    bufsize := 0, cur_pos := 0, initial_pos := 0, total_read := 13 }

/-- Witness for C8 on a concrete valid open. -/
theorem open_stream_in_validates_witness :
    open_stream_in ⟨c8_file, 0, true⟩ 1 = some c8_si ∧
      (c8_si.total_read = (13 * 1) % U32 ∧ c8_si.s.length = 1 ∧
        ∀ i, i < 1 →
          read_header ⟨c8_file, c8_si.initial_pos + 13 * i, true⟩ =
            some ((CTYPE_NONE, 0, 0, (c8_si.s.getD i default).last_head),
                  ⟨c8_file, c8_si.initial_pos + 13 * i + 13, true⟩)) := by
  have h : open_stream_in ⟨c8_file, 0, true⟩ 1 = some c8_si := by
    simp [open_stream_in, open_in_loop, open_in_hdr, read_header, read_u8,
      read_u16, read_u32, read_buf, CTYPE_NONE, c8_file, c8_si, U32_eq]
  exact ⟨h, open_stream_in_validates ⟨c8_file, 0, true⟩ 1 c8_si h⟩

/-- Witness for C10 at `n = 2` on a write-refusing fd. -/
theorem open_stream_out_ignores_failed_writes_witness :
    (⟨[], 0, false⟩ : Fd).writeOk = false ∧
      ∃ si, open_stream_out ⟨[], 0, false⟩ 2 5 = some si ∧
        si.cur_pos = (13 * 2) % U32 ∧ si.fd = ⟨[], 0, false⟩ :=
  ⟨rfl, open_stream_out_ignores_failed_writes ⟨[], 0, false⟩ 2 5 rfl⟩

/-! ### Byte-splice lemmas for the round-trip proof -/

theorem writeBytesAt_compose (d : List Nat) (k : Nat) (a b : List Nat) :
    writeBytesAt (writeBytesAt d k a) (k + a.length) b
      = writeBytesAt d k (a ++ b) := by
  have h1 : writeBytesAt d k a
      = (d.take k ++ List.replicate (k - d.length) 0 ++ a)
        ++ d.drop (k + a.length) := by
    unfold writeBytesAt
    simp [List.append_assoc]
  have hP : (d.take k ++ List.replicate (k - d.length) 0 ++ a).length
      = k + a.length := by
    simp only [List.length_append, List.length_take, List.length_replicate]
    omega
  conv_lhs => rw [h1]
  unfold writeBytesAt
  rw [List.take_left' hP]
  have hz : k + a.length
      - ((d.take k ++ List.replicate (k - d.length) 0 ++ a)
          ++ d.drop (k + a.length)).length = 0 := by
    simp only [List.length_append, List.length_take, List.length_replicate,
      List.length_drop]
    omega
  rw [hz]
  have hdrop : ((d.take k ++ List.replicate (k - d.length) 0 ++ a)
      ++ d.drop (k + a.length)).drop (k + a.length + b.length)
      = d.drop (k + (a ++ b).length) := by
    have h2 : k + a.length + b.length
        = (d.take k ++ List.replicate (k - d.length) 0 ++ a).length
          + b.length := by rw [hP]
    rw [h2, List.drop_append, List.drop_drop]
    congr 1
    simp
    omega
  rw [hdrop]
  simp [List.append_assoc]


theorem write_buf_some {fd : Fd} (bs : List Nat) (hw : fd.writeOk = true) :
    write_buf fd bs = some { fd with
      data := writeBytesAt fd.data fd.pos bs, pos := fd.pos + bs.length } := by
  simp [write_buf, hw]

theorem write_u32_buf (fd : Fd) (v : Nat) :
    write_u32 fd v = write_buf fd (u32le v) := by
  cases hw : fd.writeOk with
  | false => simp [write_u32, write_u16, write_buf, hw]
  | true =>
    rw [write_buf_some (u32le v) hw]
    unfold write_u32 write_u16
    rw [write_buf_some [v % 65536 % 256, v % 65536 / 256 % 256] hw]
    simp only [Option.bind_eq_bind, Option.some_bind]
    rw [write_buf_some [v / 65536 % 256, v / 65536 / 256 % 256] (by simp [hw])]
    have hc := writeBytesAt_compose fd.data fd.pos
      [v % 65536 % 256, v % 65536 / 256 % 256]
      [v / 65536 % 256, v / 65536 / 256 % 256]
    simp only [List.length_cons, List.length_nil] at hc
    simp only [Option.pure_def, Option.some.injEq]
    have h4 : u32le v = [v % 65536 % 256, v % 65536 / 256 % 256]
        ++ [v / 65536 % 256, v / 65536 / 256 % 256] := rfl
    rw [h4]
    simp only [List.length_cons, List.length_nil, List.length_append] at hc ⊢
    rw [hc]

theorem read_buf_at {data : List Nat} {p : Nat} {w : Bool} (len : Nat)
    (pre rest : List Nat) (hdrop : data.drop p = pre ++ rest)
    (hlen : pre.length = len) (hp : p ≤ data.length) :
    read_buf ⟨data, p, w⟩ len = some (pre, ⟨data, p + len, w⟩) := by
  have hlen2 := congrArg List.length hdrop
  simp only [List.length_drop, List.length_append] at hlen2
  have hle : p + len ≤ data.length := by omega
  unfold read_buf
  simp only
  rw [if_pos hle, hdrop, List.take_left' hlen]



/-- The serialized 13-byte chunk header. -/
def chunkHdr (ct cl ul nx : Nat) : List Nat :=
  (ct % 256) :: (u32le cl ++ u32le ul ++ u32le nx)

theorem u16le_length (v : Nat) : (u16le v).length = 2 := rfl

theorem u32le_length (v : Nat) : (u32le v).length = 4 := rfl

theorem chunkHdr_length (ct cl ul nx : Nat) :
    (chunkHdr ct cl ul nx).length = 13 := rfl

theorem read_u8_at {data : List Nat} {p : Nat} {w : Bool} (c : Nat)
    (rest : List Nat) (hdrop : data.drop p = c :: rest)
    (hp : p ≤ data.length) :
    read_u8 ⟨data, p, w⟩ = some (c, ⟨data, p + 1, w⟩) := by
  have hb := @read_buf_at data p w 1 [c] rest (by simpa using hdrop) rfl hp
  unfold read_u8
  rw [hb]
  simp

theorem read_u16_at {data : List Nat} {p : Nat} {w : Bool} (x : Nat)
    (hx : x < 65536) (rest : List Nat)
    (hdrop : data.drop p = u16le x ++ rest) (hp : p ≤ data.length) :
    read_u16 ⟨data, p, w⟩ = some (x, ⟨data, p + 2, w⟩) := by
  have hb := @read_buf_at data p w 2 (u16le x) rest hdrop rfl hp
  unfold read_u16
  rw [hb]
  simp [u16le]
  omega

theorem drop_of_drop_eq {data : List Nat} {p : Nat} {pre rest : List Nat}
    (hdrop : data.drop p = pre ++ rest) :
    data.drop (p + pre.length) = rest := by
  rw [← List.drop_drop pre.length p data, hdrop]
  exact List.drop_left' rfl



theorem read_u32_at {data : List Nat} {p : Nat} {w : Bool} (v : Nat)
    (hv : v < U32) (rest : List Nat)
    (hdrop : data.drop p = u32le v ++ rest) (hp : p ≤ data.length) :
    read_u32 ⟨data, p, w⟩ = some (v, ⟨data, p + 4, w⟩) := by
  have hsplit : data.drop p
      = u16le (v % 65536) ++ (u16le (v / 65536) ++ rest) := by
    rw [hdrop, u32le, List.append_assoc]
  have hlen := congrArg List.length hdrop
  simp only [List.length_drop, List.length_append, u32le_length] at hlen
  have h1 := @read_u16_at data p w (v % 65536)
    (Nat.mod_lt _ (by norm_num)) _ hsplit hp
  have hdrop2 : data.drop (p + 2) = u16le (v / 65536) ++ rest := by
    have hd := drop_of_drop_eq hsplit
    rw [u16le_length] at hd
    exact hd
  have hv2 : v / 65536 < 65536 := by
    rw [U32_eq] at hv
    omega
  have h2 := @read_u16_at data (p + 2) w (v / 65536) hv2 rest hdrop2
    (by omega)
  unfold read_u32
  rw [h1]
  simp only [Option.bind_eq_bind, Option.some_bind]
  rw [h2]
  simp only [Option.bind_eq_bind, Option.some_bind, Option.pure_def,
    Option.some.injEq, Prod.mk.injEq]
  constructor
  · omega
  · trivial

theorem read_header_at {data : List Nat} {p : Nat} {w : Bool}
    (ct cl ul nx : Nat) (hct : ct < 256) (hcl : cl < U32) (hul : ul < U32)
    (hnx : nx < U32) (rest : List Nat)
    (hdrop : data.drop p = chunkHdr ct cl ul nx ++ rest)
    (hp : p ≤ data.length) :
    read_header ⟨data, p, w⟩ = some ((ct, cl, ul, nx), ⟨data, p + 13, w⟩) := by
  have hlen := congrArg List.length hdrop
  simp only [List.length_drop, List.length_append, chunkHdr_length] at hlen
  have hdrop0 : data.drop p
      = ct % 256 :: (u32le cl ++ (u32le ul ++ (u32le nx ++ rest))) := by
    rw [hdrop, chunkHdr]
    simp [List.append_assoc]
  have h8 := @read_u8_at data p w (ct % 256) _ hdrop0 hp
  rw [Nat.mod_eq_of_lt hct] at h8
  have hdrop1 : data.drop (p + 1)
      = u32le cl ++ (u32le ul ++ (u32le nx ++ rest)) := by
    have hd := @drop_of_drop_eq data p [ct % 256] _ (by simpa using hdrop0)
    simpa using hd
  have ha := @read_u32_at data (p + 1) w cl hcl _ hdrop1 (by omega)
  have hdrop2 : data.drop (p + 1 + 4)
      = u32le ul ++ (u32le nx ++ rest) := by
    have hd := drop_of_drop_eq hdrop1
    rw [u32le_length] at hd
    exact hd
  have hb := @read_u32_at data (p + 1 + 4) w ul hul _ hdrop2 (by omega)
  have hdrop3 : data.drop (p + 1 + 4 + 4) = u32le nx ++ rest := by
    have hd := drop_of_drop_eq hdrop2
    rw [u32le_length] at hd
    exact hd
  have hc := @read_u32_at data (p + 1 + 4 + 4) w nx hnx _ hdrop3 (by omega)
  unfold read_header
  rw [h8]
  simp only [Option.bind_eq_bind, Option.some_bind]
  rw [ha]
  simp only [Option.bind_eq_bind, Option.some_bind]
  rw [hb]
  simp only [Option.bind_eq_bind, Option.some_bind]
  rw [hc]
  rfl


/-! ### The on-disk layout determined by a sequence of flush events

A write session's file contents are characterized by the list of flushes
performed so far: each event records the flushed stream, the buffered
(uncompressed) bytes `u`, the emitted payload `c` and the chunk type. -/

structure Ev where
  stream : Nat
  u : List Nat
  c : List Nat
  ctype : Nat

/-- Bytes one chunk occupies on disk. -/
def evSize (e : Ev) : Nat := 13 + e.c.length

/-- Total length of the body (all chunks after the initial headers). -/
def bodyLen : List Ev → Nat
  | [] => 0
  | e :: r => evSize e + bodyLen r

/-- Position of the next chunk of stream `i` among `evs`, whose first
chunk starts at absolute position `base`; 0 when there is none. -/
def nextPosB : List Ev → Nat → Nat → Nat
  | [], _, _ => 0
  | e :: r, base, i =>
    if e.stream = i then base else nextPosB r (base + evSize e) i

/-- The chunk bytes of `evs` laid out from absolute position `base`. -/
def bodyBytes : List Ev → Nat → List Nat
  | [], _ => []
  | e :: r, base =>
    chunkHdr e.ctype e.c.length e.u.length
        (nextPosB r (base + evSize e) e.stream)
      ++ e.c ++ bodyBytes r (base + evSize e)

/-- The initial placeholder headers for streams `i, i+1, …` (`count` of
them), with next-offsets already back-patched to the first chunk of each
stream (`n` is the total stream count, so the body starts at `13·n`). -/
def initHdrsFrom (n : Nat) (evs : List Ev) : Nat → Nat → List Nat
  | _, 0 => []
  | i, k + 1 =>
    chunkHdr CTYPE_NONE 0 0 (nextPosB evs (13 * n) i)
      ++ initHdrsFrom n evs (i + 1) k

/-- The whole file a write session with `n` streams and flush history
`evs` has produced. -/
def render (n : Nat) (evs : List Ev) : List Nat :=
  initHdrsFrom n evs 0 n ++ bodyBytes evs (13 * n)

/-- Whether some event of stream `i` occurs. -/
def hasEvB (evs : List Ev) (i : Nat) : Bool :=
  evs.any (fun e => e.stream == i)

/-- Offset (relative to the body start) of the next-offset slot inside
the last chunk of stream `i` (meaningful only when `hasEvB`). -/
def relSlot : List Ev → Nat → Nat
  | [], _ => 0
  | e :: r, i =>
    if hasEvB r i then evSize e + relSlot r i
    else if e.stream = i then 9 else 0

/-- Absolute position of the next-offset slot the next flush of stream
`i` will back-patch: inside the last chunk of `i`, or inside the initial
header `i` when the stream has no chunks yet. -/
def lastHeadSlot (n : Nat) (evs : List Ev) (i : Nat) : Nat :=
  if hasEvB evs i then 13 * n + relSlot evs i else 13 * i + 9

/-- The per-stream sequence of uncompressed chunk payloads. -/
def uList : List Ev → Nat → List (List Nat)
  | [], _ => []
  | e :: r, i => if e.stream = i then e.u :: uList r i else uList r i

theorem bodyBytes_length (evs : List Ev) (base : Nat) :
    (bodyBytes evs base).length = bodyLen evs := by
  induction evs generalizing base with
  | nil => rfl
  | cons e r ih =>
    simp only [bodyBytes, bodyLen, List.length_append, chunkHdr_length,
      ih, evSize]

theorem initHdrsFrom_length (n : Nat) (evs : List Ev) (i count : Nat) :
    (initHdrsFrom n evs i count).length = 13 * count := by
  induction count generalizing i with
  | zero => rfl
  | succ k ih =>
    simp only [initHdrsFrom, List.length_append, chunkHdr_length, ih]
    omega

theorem render_length (n : Nat) (evs : List Ev) :
    (render n evs).length = 13 * n + bodyLen evs := by
  simp [render, initHdrsFrom_length, bodyBytes_length]


/-- The remaining uncompressed contents of a chunk list. -/
def flatU : List Ev → List Nat
  | [] => []
  | e :: r => e.u ++ flatU r

theorem padTake_self (l : List Nat) : padTake l.length l = l := by
  simp [padTake]

/-- `chain bz D lh evs`: starting at header offset `lh`, the file `D`
contains the chunks `evs` linked by their next-offsets, each well formed
(nonempty decompressed payload, in-range u32 fields, and a payload the
decompression gateway restores). -/
def chain (bz : Bzlib) (D : List Nat) : Nat → List Ev → Prop
  | _, [] => True
  | lh, e :: r => ∃ nx tail,
      D.drop lh = chunkHdr e.ctype e.c.length e.u.length nx
        ++ (e.c ++ tail) ∧
      e.c.length < U32 ∧ e.u.length < U32 ∧ nx < U32 ∧ 1 ≤ e.u.length ∧
      ((e.ctype = CTYPE_NONE ∧ e.c = e.u) ∨
       (e.ctype = CTYPE_BZIP2 ∧ bz.bzDecompress e.u.length e.c = some e.u)) ∧
      chain bz D nx r

theorem fill_at {bz : Bzlib} {si : StreamInfo} {stream : Nat} {D : List Nat}
    {e : Ev} {r : List Ev}
    (hfd : si.fd.data = D) (hip : si.initial_pos = 0)
    (hlt : stream < si.s.length)
    (hchain : chain bz D (si.s.getD stream default).last_head (e :: r)) :
    ∃ nx flag,
      fill_buffer bz si stream =
        some ({ si with
                fd := ⟨D, (si.s.getD stream default).last_head + 13
                         + e.c.length, si.fd.writeOk⟩
                total_read := ((si.total_read + 13) % U32 + e.c.length) % U32
                s := si.s.set stream
                  { last_head := nx, buf := e.u, buflen := e.u.length
                    bufp := 0
                    bzip_level := (si.s.getD stream default).bzip_level } },
              flag) ∧
      nx < U32 ∧ chain bz D nx r := by
  obtain ⟨nx, tail, hdrop, hcl, hul, hnx, hu1, hwf, hch⟩ := hchain
  have hlen := congrArg List.length hdrop
  simp only [List.length_drop, List.length_append, chunkHdr_length] at hlen
  have hlh : (si.s.getD stream default).last_head ≤ D.length := by omega
  have hct : e.ctype < 256 := by
    rcases hwf with ⟨h, -⟩ | ⟨h, -⟩ <;> rw [h] <;> norm_num [CTYPE_NONE, CTYPE_BZIP2]
  have hseek : (seekto si (si.s.getD stream default).last_head).fd
      = ⟨D, (si.s.getD stream default).last_head, si.fd.writeOk⟩ := by
    simp [seekto, hfd, hip]
  have hdrop2 : D.drop ((si.s.getD stream default).last_head + 13)
      = e.c ++ tail := by
    have hd := drop_of_drop_eq hdrop
    rw [chunkHdr_length] at hd
    exact hd
  refine ⟨nx, decide (e.c.length ≤ e.u.length), ?_, hnx, hch⟩
  unfold fill_buffer
  simp only [hseek]
  rw [read_header_at e.ctype e.c.length e.u.length nx hct hcl hul hnx
    (e.c ++ tail) hdrop hlh]
  simp only [Option.bind_eq_bind, Option.some_bind]
  rw [@read_buf_at D ((si.s.getD stream default).last_head + 13)
    si.fd.writeOk e.c.length e.c tail hdrop2 rfl (by omega)]
  simp only [Option.bind_eq_bind, Option.some_bind]
  rcases hwf with ⟨h3, hcu⟩ | ⟨h4, hdec⟩
  · have hdd : decompress_buf bz
        { last_head := nx, buf := e.c, buflen := e.u.length, bufp := 0
          bzip_level := (si.s.getD stream default).bzip_level }
        e.c.length e.ctype
        = some { last_head := nx, buf := e.c, buflen := e.u.length
                 bufp := 0
                 bzip_level := (si.s.getD stream default).bzip_level } := by
      unfold decompress_buf
      rw [if_pos h3]
    rw [hdd, Option.some_bind]
    rw [hcu]
    rfl
  · have hdd : decompress_buf bz
        { last_head := nx, buf := e.c, buflen := e.u.length, bufp := 0
          bzip_level := (si.s.getD stream default).bzip_level }
        e.c.length e.ctype
        = some { last_head := nx, buf := e.u, buflen := e.u.length
                 bufp := 0
                 bzip_level := (si.s.getD stream default).bzip_level } := by
      unfold decompress_buf
      rw [if_neg (by rw [h4]; norm_num [CTYPE_NONE, CTYPE_BZIP2])]
      simp only [padTake_self, hdec]
      simp
    rw [hdd, Option.some_bind]
    rfl


namespace Rzip

theorem padTake_eq_take {n : Nat} {l : List Nat} (h : n ≤ l.length) :
    padTake n l = l.take n := by
  simp [padTake, Nat.sub_eq_zero_of_le h]

/-- The reader-side invariant for one stream: the bytes still to be
delivered are the unread part of the buffer followed by the chunks of the
chain hanging off `last_head`. -/
def RInv (bz : Bzlib) (D : List Nat) (st : Stream) (ρ : List Nat) : Prop :=
  ∃ evsR : List Ev, st.buflen = st.buf.length ∧ st.bufp ≤ st.buflen ∧
    ρ = st.buf.drop st.bufp ++ flatU evsR ∧ chain bz D st.last_head evsR

theorem read_stream_eq (bz : Bzlib) (si : StreamInfo) (stream len : Nat) :
    read_stream bz si stream len =
      if len = 0 then some (si, [])
      else
        match ensure_data bz si stream with
        | none => none
        | some (si1, true) => some (si1, [])
        | some (si1, false) =>
          let st := si1.s.getD stream default
          let n := min (st.buflen - st.bufp) len
          let out1 := padTake n (st.buf.drop st.bufp)
          let st2 := { st with bufp := st.bufp + n }
          let si2 := { si1 with s := si1.s.set stream st2 }
          match read_stream bz si2 stream (len - n) with
          | none => none
          | some (si3, out2) => some (si3, out1 ++ out2) := by
  rw [read_stream]
  by_cases h0 : len = 0
  · simp [h0]
  · rw [dif_neg h0, if_neg h0]
    split
    · next heq =>
      rw [heq]
    · next si1 heq =>
      rw [heq]
    · next si1 heq =>
      rw [heq]


theorem read_stream_correct (bz : Bzlib) (D : List Nat) :
    ∀ (len : Nat) (si : StreamInfo) (stream : Nat) (ρ : List Nat),
      stream < si.s.length → si.fd.data = D → si.initial_pos = 0 →
      RInv bz D (si.s.getD stream default) ρ → len ≤ ρ.length →
      ∃ si', read_stream bz si stream len = some (si', ρ.take len) ∧
        si'.fd.data = D ∧ si'.fd.writeOk = si.fd.writeOk ∧
        si'.initial_pos = 0 ∧ si'.num_streams = si.num_streams ∧
        si'.bufsize = si.bufsize ∧ si'.cur_pos = si.cur_pos ∧
        si'.s.length = si.s.length ∧
        (∀ j, j ≠ stream → si'.s.getD j default = si.s.getD j default) ∧
        RInv bz D (si'.s.getD stream default) (ρ.drop len) := by
  intro len
  induction len using Nat.strong_induction_on with
  | _ len IH =>
    intro si stream ρ hlt hfd hip hR hlen
    obtain ⟨evsR, hble, hbp, hρ, hchain⟩ := hR
    by_cases hlen0 : len = 0
    · subst hlen0
      refine ⟨si, ?_, hfd, rfl, hip, rfl, rfl, rfl, rfl, fun j _ => rfl, ?_⟩
      · rw [read_stream_eq]
        simp
      · simp only [List.drop_zero]
        exact ⟨evsR, hble, hbp, hρ, hchain⟩
    · by_cases hav : (si.s.getD stream default).bufp
          = (si.s.getD stream default).buflen
      · -- buffer exhausted: the loop fills before copying
        have hdropbuf : (si.s.getD stream default).buf.drop
            (si.s.getD stream default).bufp = [] :=
          List.drop_eq_nil_of_le (by omega)
        rw [hdropbuf, List.nil_append] at hρ
        cases evsR with
        | nil =>
          exfalso
          rw [hρ] at hlen
          simp [flatU] at hlen
          omega
        | cons e r =>
          have hchain2 := hchain
          obtain ⟨nx0, tail0, hd0, hcl0, hul0, hnx0, hu1, hwf0, hch0⟩ :=
            hchain2
          obtain ⟨nx, flag, hfill, hnxU, hchr⟩ := fill_at hfd hip hlt hchain
          have hens : ensure_data bz si stream =
              some ({ si with
                fd := ⟨D, (si.s.getD stream default).last_head + 13
                        + e.c.length, si.fd.writeOk⟩
                total_read := ((si.total_read + 13) % U32
                        + e.c.length) % U32
                s := si.s.set stream
                  { last_head := nx, buf := e.u, buflen := e.u.length
                    bufp := 0
                    bzip_level :=
                      (si.s.getD stream default).bzip_level } }, false) := by
            unfold ensure_data
            simp only
            rw [if_pos hav, hfill]
            simp only [getD_set_self, hlt, if_pos]
            congr 1
            congr 1
            exact beq_eq_false_iff_ne.mpr (by omega)
          have hρ2 : ρ = e.u ++ flatU r := hρ
          have hρlen : ρ.length = e.u.length + (flatU r).length := by
            rw [hρ2]
            simp
          have hmin : min e.u.length len ≤ e.u.length := Nat.min_le_left _ _
          have hminlen : min e.u.length len ≤ len := Nat.min_le_right _ _
          have hmin1 : 1 ≤ min e.u.length len := by omega
          have hgd : (({ si with
                fd := ⟨D, (si.s.getD stream default).last_head + 13
                        + e.c.length, si.fd.writeOk⟩
                total_read := ((si.total_read + 13) % U32
                        + e.c.length) % U32
                s := (si.s.set stream
                  { last_head := nx, buf := e.u, buflen := e.u.length
                    bufp := 0
                    bzip_level :=
                      (si.s.getD stream default).bzip_level }).set stream
                  { last_head := nx, buf := e.u, buflen := e.u.length
                    bufp := e.u.length ⊓ len
                    bzip_level :=
                      (si.s.getD stream default).bzip_level } }
                : StreamInfo).s.getD stream default)
              = { last_head := nx, buf := e.u, buflen := e.u.length
                  bufp := e.u.length ⊓ len
                  bzip_level :=
                    (si.s.getD stream default).bzip_level } := by
            simp only
            rw [getD_set_self]
            simp [List.length_set, hlt]
          obtain ⟨si3, hrec, h3fd, h3ok, h3ip, h3num, h3bs, h3cp, h3slen,
              h3frame, h3R⟩ :=
            IH (len - min e.u.length len) (by omega)
              { si with
                fd := ⟨D, (si.s.getD stream default).last_head + 13
                        + e.c.length, si.fd.writeOk⟩
                total_read := ((si.total_read + 13) % U32
                        + e.c.length) % U32
                s := (si.s.set stream
                  { last_head := nx, buf := e.u, buflen := e.u.length
                    bufp := 0
                    bzip_level :=
                      (si.s.getD stream default).bzip_level }).set stream
                  { last_head := nx, buf := e.u, buflen := e.u.length
                    bufp := e.u.length ⊓ len
                    bzip_level :=
                      (si.s.getD stream default).bzip_level } }
              stream (ρ.drop (min e.u.length len))
              (by simp [List.length_set, hlt])
              rfl hip
              (by
                rw [hgd]
                refine ⟨r, rfl, ?_, ?_, hchr⟩
                · exact hmin
                · rw [hρ2, List.drop_append_of_le_length hmin])
              (by
                simp only [List.length_drop]
                omega)
          refine ⟨si3, ?_, h3fd, h3ok, h3ip, h3num, h3bs, h3cp, ?_, ?_, ?_⟩
          · rw [read_stream_eq, if_neg hlen0, hens]
            simp only [getD_set_self, List.length_set, hlt, if_pos,
              List.drop_zero, Nat.sub_zero, Nat.zero_add]
            rw [hrec]
            have hout : padTake (e.u.length ⊓ len) e.u
                ++ (ρ.drop (e.u.length ⊓ len)).take (len - e.u.length ⊓ len)
                = ρ.take len := by
              rw [padTake_eq_take hmin]
              have h1 : e.u.length ⊓ len + (len - e.u.length ⊓ len)
                  = len := by omega
              conv_rhs => rw [← h1, List.take_add]
              congr 1
              rw [hρ2, List.take_append_of_le_length hmin]
            simp only [hout]
          · rw [h3slen]
            simp [List.length_set]
          · intro j hj
            rw [h3frame j hj]
            simp only
            rw [getD_set_ne _ _ _ _ _ (fun hh => hj hh.symm),
              getD_set_ne _ _ _ _ _ (fun hh => hj hh.symm)]
          · have hdd : (ρ.drop (e.u.length ⊓ len)).drop
                (len - e.u.length ⊓ len) = ρ.drop len := by
              rw [List.drop_drop]
              congr 1
              omega
            rw [← hdd]
            exact h3R
      · -- bytes still available in the buffer: no fill happens
        have havlt : (si.s.getD stream default).bufp
            < (si.s.getD stream default).buflen := by omega
        have hens : ensure_data bz si stream = some (si, false) := by
          unfold ensure_data
          simp only
          rw [if_neg hav, if_neg (by omega)]
        have hdlen : ((si.s.getD stream default).buf.drop
            (si.s.getD stream default).bufp).length
            = (si.s.getD stream default).buflen
              - (si.s.getD stream default).bufp := by
          simp only [List.length_drop]
          omega
        have hmin : min ((si.s.getD stream default).buflen
              - (si.s.getD stream default).bufp) len
            ≤ (si.s.getD stream default).buflen
              - (si.s.getD stream default).bufp := Nat.min_le_left _ _
        have hminlen : min ((si.s.getD stream default).buflen
              - (si.s.getD stream default).bufp) len ≤ len :=
          Nat.min_le_right _ _
        have hmin1 : 1 ≤ min ((si.s.getD stream default).buflen
            - (si.s.getD stream default).bufp) len := by omega
        have hgd : (({ si with
              s := si.s.set stream
                { si.s.getD stream default with
                  bufp := (si.s.getD stream default).bufp
                    + ((si.s.getD stream default).buflen
                      - (si.s.getD stream default).bufp) ⊓ len } }
              : StreamInfo).s.getD stream default)
            = { si.s.getD stream default with
                bufp := (si.s.getD stream default).bufp
                  + ((si.s.getD stream default).buflen
                    - (si.s.getD stream default).bufp) ⊓ len } := by
          simp only
          rw [getD_set_self]
          simp [hlt]
        obtain ⟨si3, hrec, h3fd, h3ok, h3ip, h3num, h3bs, h3cp, h3slen,
            h3frame, h3R⟩ :=
          IH (len - ((si.s.getD stream default).buflen
              - (si.s.getD stream default).bufp) ⊓ len) (by omega)
            { si with
              s := si.s.set stream
                { si.s.getD stream default with
                  bufp := (si.s.getD stream default).bufp
                    + ((si.s.getD stream default).buflen
                      - (si.s.getD stream default).bufp) ⊓ len } }
            stream (ρ.drop (((si.s.getD stream default).buflen
              - (si.s.getD stream default).bufp) ⊓ len))
            (by simp [List.length_set, hlt])
            hfd hip
            (by
              rw [hgd]
              refine ⟨evsR, hble, by simp only; omega, ?_, hchain⟩
              simp only
              rw [hρ, List.drop_append_of_le_length (by omega),
                List.drop_drop])
            (by
              simp only [List.length_drop]
              omega)
        refine ⟨si3, ?_, h3fd, h3ok, h3ip, h3num, h3bs, h3cp, ?_, ?_, ?_⟩
        · rw [read_stream_eq, if_neg hlen0, hens]
          simp only
          rw [hrec]
          have hout : padTake (((si.s.getD stream default).buflen
                - (si.s.getD stream default).bufp) ⊓ len)
                ((si.s.getD stream default).buf.drop
                  (si.s.getD stream default).bufp)
              ++ (ρ.drop (((si.s.getD stream default).buflen
                - (si.s.getD stream default).bufp) ⊓ len)).take
                (len - ((si.s.getD stream default).buflen
                  - (si.s.getD stream default).bufp) ⊓ len)
              = ρ.take len := by
            rw [padTake_eq_take (by omega)]
            have h1 : ((si.s.getD stream default).buflen
                  - (si.s.getD stream default).bufp) ⊓ len
                + (len - ((si.s.getD stream default).buflen
                  - (si.s.getD stream default).bufp) ⊓ len) = len := by
              omega
            conv_rhs => rw [← h1, List.take_add]
            congr 1
            rw [hρ, List.take_append_of_le_length (by omega)]
          simp only [hout]
        · rw [h3slen]
          simp [List.length_set]
        · intro j hj
          rw [h3frame j hj]
          simp only
          rw [getD_set_ne _ _ _ _ _ (fun hh => hj hh.symm)]
        · have hdd : (ρ.drop (((si.s.getD stream default).buflen
                - (si.s.getD stream default).bufp) ⊓ len)).drop
              (len - ((si.s.getD stream default).buflen
                - (si.s.getD stream default).bufp) ⊓ len) = ρ.drop len := by
            rw [List.drop_drop]
            congr 1
            omega
          rw [← hdd]
          exact h3R


/-! ### Splicing lemmas for `writeBytesAt` -/

theorem writeBytesAt_length (d : List Nat) (p : Nat) (bs : List Nat) :
    (writeBytesAt d p bs).length = max d.length (p + bs.length) := by
  simp only [writeBytesAt, List.length_append, List.length_take,
    List.length_replicate, List.length_drop]
  omega

theorem writeBytesAt_append_left {l1 : List Nat} (l2 : List Nat) {p : Nat}
    {bs : List Nat} (h : p + bs.length ≤ l1.length) :
    writeBytesAt (l1 ++ l2) p bs = writeBytesAt l1 p bs ++ l2 := by
  unfold writeBytesAt
  rw [List.take_append_of_le_length (by omega),
    List.drop_append_of_le_length (by omega)]
  have h1 : p - (l1 ++ l2).length = 0 := by
    simp only [List.length_append]
    omega
  have h2 : p - l1.length = 0 := by omega
  rw [h1, h2]
  simp [List.append_assoc]

theorem writeBytesAt_append_right (l1 l2 : List Nat) (q : Nat)
    (bs : List Nat) :
    writeBytesAt (l1 ++ l2) (l1.length + q) bs
      = l1 ++ writeBytesAt l2 q bs := by
  unfold writeBytesAt
  rw [List.take_append]
  have h1 : l1.length + q - (l1 ++ l2).length = q - l2.length := by
    simp only [List.length_append]
    omega
  have h2 : l1.length + q + bs.length = l1.length + (q + bs.length) := by
    omega
  rw [h1, h2, List.drop_append]
  simp [List.append_assoc]

theorem writeBytesAt_zero (l bs : List Nat) :
    writeBytesAt l 0 bs = bs ++ l.drop bs.length := by
  simp [writeBytesAt]

/-- Back-patching the next-offset slot of a serialized chunk header. -/
theorem patch_chunkHdr (ct cl ul x y : Nat) (tail : List Nat) :
    writeBytesAt (chunkHdr ct cl ul x ++ tail) 9 (u32le y)
      = chunkHdr ct cl ul y ++ tail := by
  have h9 : chunkHdr ct cl ul x ++ tail
      = ((ct % 256) :: (u32le cl ++ u32le ul)) ++ (u32le x ++ tail) := by
    simp [chunkHdr, List.append_assoc]
  have hl : ((ct % 256) :: (u32le cl ++ u32le ul)).length = 9 := rfl
  rw [h9]
  have h0 := writeBytesAt_append_right ((ct % 256) :: (u32le cl ++ u32le ul))
    (u32le x ++ tail) 0 (u32le y)
  rw [hl] at h0
  rw [h0, writeBytesAt_zero]
  have hdx : (u32le x ++ tail).drop (u32le y).length = tail := by
    rw [u32le_length,
      List.drop_append_of_le_length (by rw [u32le_length])]
    simp [List.drop_eq_nil_of_le, u32le_length]
  rw [hdx]
  simp [chunkHdr, List.append_assoc]

/-! ### Combinatorics of the rendered layout -/

/-- The events of stream `i`, in order. -/
def evsOf (evs : List Ev) (i : Nat) : List Ev :=
  evs.filter (fun e => e.stream == i)

theorem evsOf_append (a b : List Ev) (i : Nat) :
    evsOf (a ++ b) i = evsOf a i ++ evsOf b i := by
  simp [evsOf]

theorem flatU_append (a b : List Ev) :
    flatU (a ++ b) = flatU a ++ flatU b := by
  induction a with
  | nil => rfl
  | cons e r ih => simp [flatU, ih]

theorem hasEvB_cons (f : Ev) (r : List Ev) (i : Nat) :
    hasEvB (f :: r) i = ((f.stream == i) || hasEvB r i) := by
  simp [hasEvB]

theorem hasEvB_append (a b : List Ev) (i : Nat) :
    hasEvB (a ++ b) i = (hasEvB a i || hasEvB b i) := by
  simp [hasEvB]

theorem hasEvB_evsOf (evs : List Ev) (i : Nat) :
    hasEvB evs i = false → evsOf evs i = [] := by
  intro h
  simp only [hasEvB, List.any_eq_false, beq_iff_eq] at h
  simp only [evsOf, List.filter_eq_nil]
  intro e he
  simpa using h e he

theorem bodyLen_cons (f : Ev) (r : List Ev) :
    bodyLen (f :: r) = evSize f + bodyLen r := rfl

theorem nextPosB_cons (f : Ev) (r : List Ev) (base i : Nat) :
    nextPosB (f :: r) base i
      = if f.stream = i then base else nextPosB r (base + evSize f) i := rfl

theorem bodyBytes_cons (f : Ev) (r : List Ev) (base : Nat) :
    bodyBytes (f :: r) base
      = chunkHdr f.ctype f.c.length f.u.length
          (nextPosB r (base + evSize f) f.stream)
        ++ f.c ++ bodyBytes r (base + evSize f) := rfl

theorem relSlot_cons (f : Ev) (r : List Ev) (i : Nat) :
    relSlot (f :: r) i
      = if hasEvB r i then evSize f + relSlot r i
        else if f.stream = i then 9 else 0 := rfl

theorem bodyLen_append (a b : List Ev) :
    bodyLen (a ++ b) = bodyLen a + bodyLen b := by
  induction a with
  | nil => simp [bodyLen]
  | cons e r ih =>
    rw [List.cons_append, bodyLen_cons, bodyLen_cons, ih]
    omega

theorem nextPosB_le (evs : List Ev) (base i : Nat) :
    nextPosB evs base i ≤ base + bodyLen evs := by
  induction evs generalizing base with
  | nil => simp [nextPosB, bodyLen]
  | cons e r ih =>
    rw [nextPosB_cons, bodyLen_cons]
    split
    · omega
    · have := ih (base + evSize e)
      omega

theorem nextPosB_none (evs : List Ev) (base i : Nat)
    (h : hasEvB evs i = false) : nextPosB evs base i = 0 := by
  induction evs generalizing base with
  | nil => rfl
  | cons e r ih =>
    rw [hasEvB_cons] at h
    simp only [Bool.or_eq_false_iff, beq_eq_false_iff_ne, ne_eq] at h
    rw [nextPosB_cons, if_neg h.1]
    exact ih _ h.2

theorem nextPosB_pos (evs : List Ev) (base i : Nat)
    (h : hasEvB evs i = true) : base ≤ nextPosB evs base i := by
  induction evs generalizing base with
  | nil => simp [hasEvB] at h
  | cons e r ih =>
    rw [hasEvB_cons] at h
    simp only [Bool.or_eq_true, beq_iff_eq] at h
    rw [nextPosB_cons]
    by_cases he : e.stream = i
    · rw [if_pos he]
    · rw [if_neg he]
      rcases h with h | h
      · exact absurd h he
      · have := ih (base + evSize e) h
        omega

theorem nextPosB_append (evs : List Ev) (e : Ev) (base i : Nat) :
    nextPosB (evs ++ [e]) base i
      = if hasEvB evs i then nextPosB evs base i
        else if e.stream = i then base + bodyLen evs else 0 := by
  induction evs generalizing base with
  | nil =>
    rw [List.nil_append, nextPosB_cons]
    have hn : hasEvB ([] : List Ev) i = false := rfl
    rw [hn]
    simp only [Bool.false_eq_true, if_false]
    split
    · next hh => simp [bodyLen]
    · next hh => rfl
  | cons f r ih =>
    rw [List.cons_append, nextPosB_cons, hasEvB_cons]
    by_cases hf : f.stream = i
    · have hbeq : (f.stream == i) = true := by simp [hf]
      rw [if_pos hf, hbeq, Bool.true_or, if_pos rfl, nextPosB_cons,
        if_pos hf]
    · have hbeq : (f.stream == i) = false := by simp [hf]
      rw [if_neg hf, ih, hbeq, Bool.false_or]
      cases hb : hasEvB r i with
      | true =>
        rw [if_pos rfl, if_pos rfl, nextPosB_cons, if_neg hf]
      | false =>
        simp only [Bool.false_eq_true, if_false]
        by_cases he : e.stream = i
        · rw [if_pos he, if_pos he, bodyLen_cons]
          omega
        · rw [if_neg he, if_neg he]

theorem relSlot_append_self (evs : List Ev) (e : Ev) (i : Nat)
    (he : e.stream = i) :
    relSlot (evs ++ [e]) i = bodyLen evs + 9 := by
  induction evs with
  | nil =>
    rw [List.nil_append, relSlot_cons]
    have hn : hasEvB ([] : List Ev) i = false := rfl
    rw [hn]
    simp [he, bodyLen]
  | cons f r ih =>
    have hhas : hasEvB (r ++ [e]) i = true := by
      rw [hasEvB_append]
      simp [hasEvB, he]
    rw [List.cons_append, relSlot_cons, if_pos hhas, ih, bodyLen_cons]
    omega

theorem relSlot_append_ne (evs : List Ev) (e : Ev) (i : Nat)
    (he : e.stream ≠ i) :
    relSlot (evs ++ [e]) i = relSlot evs i := by
  induction evs with
  | nil =>
    rw [List.nil_append, relSlot_cons]
    have hn : hasEvB ([] : List Ev) i = false := rfl
    rw [hn]
    simp only [Bool.false_eq_true, if_false, if_neg he]
    rfl
  | cons f r ih =>
    have hhas : hasEvB (r ++ [e]) i = hasEvB r i := by
      rw [hasEvB_append]
      simp [hasEvB, he]
    rw [List.cons_append, relSlot_cons, hhas, ih, relSlot_cons]

/-- Appending the first chunk of a fresh stream extends the body verbatim
(no existing chunk of that stream to back-patch). -/
theorem bodyBytes_append_fresh (evs : List Ev) (e : Ev)
    (h : hasEvB evs e.stream = false) : ∀ (base : Nat),
    bodyBytes (evs ++ [e]) base
      = bodyBytes evs base
        ++ (chunkHdr e.ctype e.c.length e.u.length 0 ++ e.c) := by
  induction evs with
  | nil =>
    intro base
    rw [List.nil_append, bodyBytes_cons]
    have h1 : bodyBytes ([] : List Ev) (base + evSize e) = [] := rfl
    have h2 : bodyBytes ([] : List Ev) base = [] := rfl
    have h3 : nextPosB ([] : List Ev) (base + evSize e) e.stream = 0 := rfl
    rw [h1, h2, h3]
    simp
  | cons f r ih =>
    intro base
    rw [hasEvB_cons] at h
    simp only [Bool.or_eq_false_iff, beq_eq_false_iff_ne, ne_eq] at h
    rw [List.cons_append, bodyBytes_cons, bodyBytes_cons]
    have hnx : nextPosB (r ++ [e]) (base + evSize f) f.stream
        = nextPosB r (base + evSize f) f.stream := by
      rw [nextPosB_append]
      by_cases hr : hasEvB r f.stream
      · rw [if_pos hr]
      · rw [if_neg (by simp [hr]), if_neg (fun hh => h.1 hh.symm),
          nextPosB_none r _ _ (by simpa using hr)]
    rw [hnx, ih h.2]
    simp [List.append_assoc]

/-- Appending a further chunk of a stream that already has one: back-patch
the next-offset slot of its last chunk, then extend. -/
theorem bodyBytes_append_patch (evs : List Ev) (e : Ev)
    (h : hasEvB evs e.stream = true) : ∀ (base : Nat),
    bodyBytes (evs ++ [e]) base
      = writeBytesAt (bodyBytes evs base) (relSlot evs e.stream)
          (u32le (base + bodyLen evs))
        ++ (chunkHdr e.ctype e.c.length e.u.length 0 ++ e.c) := by
  induction evs with
  | nil => simp [hasEvB] at h
  | cons f r ih =>
    intro base
    rw [List.cons_append, bodyBytes_cons, bodyBytes_cons, relSlot_cons,
      bodyLen_cons]
    by_cases hr : hasEvB r e.stream
    · rw [if_pos hr]
      have hnx : nextPosB (r ++ [e]) (base + evSize f) f.stream
          = nextPosB r (base + evSize f) f.stream := by
        rw [nextPosB_append]
        by_cases hfr : hasEvB r f.stream
        · rw [if_pos hfr]
        · rw [if_neg (by simp [hfr])]
          by_cases hfe : e.stream = f.stream
          · rw [hfe] at hr
            exact absurd hr (by simp [hfr])
          · rw [if_neg hfe, nextPosB_none r _ _ (by simpa using hfr)]
      rw [hnx, ih hr]
      have hbl : base + evSize f + bodyLen r
          = base + (evSize f + bodyLen r) := by omega
      rw [hbl]
      have hlenfc : (chunkHdr f.ctype f.c.length f.u.length
            (nextPosB r (base + evSize f) f.stream) ++ f.c).length
          = evSize f := by
        simp [chunkHdr_length, evSize]
      have hwr := writeBytesAt_append_right
        (chunkHdr f.ctype f.c.length f.u.length
          (nextPosB r (base + evSize f) f.stream) ++ f.c)
        (bodyBytes r (base + evSize f)) (relSlot r e.stream)
        (u32le (base + (evSize f + bodyLen r)))
      rw [hlenfc] at hwr
      rw [hwr]
      simp [List.append_assoc]
    · rw [if_neg (by simp [hr])]
      have hf : f.stream = e.stream := by
        rw [hasEvB_cons] at h
        simp only [Bool.or_eq_true, beq_iff_eq] at h
        rcases h with h | h
        · exact h
        · exact absurd h (by simp [hr])
      rw [if_pos hf]
      have hnx : nextPosB (r ++ [e]) (base + evSize f) f.stream
          = base + evSize f + bodyLen r := by
        rw [nextPosB_append, if_neg (by rw [hf]; simp [hr]),
          if_pos hf.symm]
      rw [hnx, bodyBytes_append_fresh r e (by simpa using hr)]
      have hbl : base + evSize f + bodyLen r
          = base + (evSize f + bodyLen r) := by omega
      rw [hbl]
      have hp := patch_chunkHdr f.ctype f.c.length f.u.length
        (nextPosB r (base + evSize f) f.stream)
        (base + (evSize f + bodyLen r))
        (f.c ++ bodyBytes r (base + evSize f))
      rw [← List.append_assoc, ← List.append_assoc] at hp
      rw [hp]
      simp [List.append_assoc]

/-- `initHdrsFrom` depends on the events only through the next-offsets of
the rendered streams. -/
theorem initHdrsFrom_congr (n : Nat) (evs1 evs2 : List Ev) :
    ∀ (count i : Nat),
      (∀ m, i ≤ m → m < i + count →
        nextPosB evs1 (13 * n) m = nextPosB evs2 (13 * n) m) →
      initHdrsFrom n evs1 i count = initHdrsFrom n evs2 i count := by
  intro count
  induction count with
  | zero => intro i _; rfl
  | succ k ih =>
    intro i h
    show chunkHdr CTYPE_NONE 0 0 (nextPosB evs1 (13 * n) i)
        ++ initHdrsFrom n evs1 (i + 1) k = _
    rw [h i (by omega) (by omega), ih (i + 1) (fun m h1 h2 => h m (by omega)
      (by omega))]
    rfl

/-- Back-patching the initial header of a fresh stream. -/
theorem initHdrsFrom_patch (n : Nat) (evs : List Ev) (e : Ev)
    (h : hasEvB evs e.stream = false) :
    ∀ (count i : Nat), i ≤ e.stream → e.stream < i + count →
      initHdrsFrom n (evs ++ [e]) i count
        = writeBytesAt (initHdrsFrom n evs i count)
            (13 * (e.stream - i) + 9) (u32le (13 * n + bodyLen evs)) := by
  intro count
  induction count with
  | zero => intro i h1 h2; omega
  | succ k ih =>
    intro i h1 h2
    show chunkHdr CTYPE_NONE 0 0 (nextPosB (evs ++ [e]) (13 * n) i)
        ++ initHdrsFrom n (evs ++ [e]) (i + 1) k
      = writeBytesAt (chunkHdr CTYPE_NONE 0 0 (nextPosB evs (13 * n) i)
          ++ initHdrsFrom n evs (i + 1) k) _ _
    by_cases hei : e.stream = i
    · have hz : 13 * (e.stream - i) + 9 = 9 := by
        rw [hei]
        simp
      rw [hz]
      have hnx1 : nextPosB (evs ++ [e]) (13 * n) i
          = 13 * n + bodyLen evs := by
        rw [nextPosB_append, if_neg (by rw [← hei]; simp [h]),
          if_pos hei]
      rw [hnx1]
      have hcongr : initHdrsFrom n (evs ++ [e]) (i + 1) k
          = initHdrsFrom n evs (i + 1) k := by
        apply initHdrsFrom_congr
        intro m hm1 hm2
        rw [nextPosB_append]
        by_cases hme : hasEvB evs m
        · rw [if_pos hme]
        · rw [if_neg (by simp [hme]), if_neg (fun hh => by omega),
            nextPosB_none _ _ _ (by simpa using hme)]
      rw [hcongr, patch_chunkHdr]
    · have hlt : i < e.stream := by omega
      have hnx1 : nextPosB (evs ++ [e]) (13 * n) i
          = nextPosB evs (13 * n) i := by
        rw [nextPosB_append]
        by_cases hme : hasEvB evs i
        · rw [if_pos hme]
        · rw [if_neg (by simp [hme]), if_neg hei,
            nextPosB_none _ _ _ (by simpa using hme)]
      rw [hnx1, ih (i + 1) (by omega) (by omega)]
      have hsl : 13 * (e.stream - i) + 9
          = (chunkHdr CTYPE_NONE 0 0 (nextPosB evs (13 * n) i)).length
            + (13 * (e.stream - (i + 1)) + 9) := by
        rw [chunkHdr_length]
        omega
      rw [hsl, writeBytesAt_append_right]

/-- One flush-event step of the rendered file: patching the stream's
pending next-offset slot with the current end of file and appending the
new chunk yields the rendering of the extended event list. -/
theorem render_step (n : Nat) (evs : List Ev) (e : Ev)
    (hs : e.stream < n) :
    render n (evs ++ [e])
      = writeBytesAt (render n evs) (lastHeadSlot n evs e.stream)
          (u32le (13 * n + bodyLen evs))
        ++ (chunkHdr e.ctype e.c.length e.u.length 0 ++ e.c) := by
  unfold render lastHeadSlot
  by_cases h : hasEvB evs e.stream
  · rw [if_pos h]
    have hcongr : initHdrsFrom n (evs ++ [e]) 0 n
        = initHdrsFrom n evs 0 n := by
      apply initHdrsFrom_congr
      intro m _ _
      rw [nextPosB_append]
      by_cases hme : hasEvB evs m
      · rw [if_pos hme]
      · rw [if_neg (by simp [hme])]
        have hne : e.stream ≠ m := fun hh => by
          rw [hh] at h
          exact absurd h (by simp [hme])
        rw [if_neg hne, nextPosB_none _ _ _ (by simpa using hme)]
    rw [hcongr, bodyBytes_append_patch evs e h]
    have hwr := writeBytesAt_append_right (initHdrsFrom n evs 0 n)
      (bodyBytes evs (13 * n)) (relSlot evs e.stream)
      (u32le (13 * n + bodyLen evs))
    rw [initHdrsFrom_length] at hwr
    rw [hwr]
    simp [List.append_assoc]
  · rw [if_neg h]
    rw [bodyBytes_append_fresh evs e (by simpa using h)]
    rw [initHdrsFrom_patch n evs e (by simpa using h) n 0 (by omega)
      (by omega)]
    have he0 : 13 * (e.stream - 0) + 9 = 13 * e.stream + 9 := by omega
    rw [he0]
    have hwl := @writeBytesAt_append_left (initHdrsFrom n evs 0 n)
      (bodyBytes evs (13 * n)) (13 * e.stream + 9)
      (u32le (13 * n + bodyLen evs))
      (by
        rw [initHdrsFrom_length, u32le_length]
        omega)
    rw [hwl]
    simp [List.append_assoc]


/-- Well-formedness of one flush event: the stream exists, the chunk is
nonempty with in-range sizes, and the payload is either the verbatim
buffer or a strictly smaller compressed form the codec restores. -/
def EvWf (bz : Bzlib) (n : Nat) (e : Ev) : Prop :=
  e.stream < n ∧ 1 ≤ e.u.length ∧ e.u.length < U32 ∧
  e.c.length ≤ e.u.length ∧
  ((e.ctype = CTYPE_NONE ∧ e.c = e.u) ∨
   (e.ctype = CTYPE_BZIP2 ∧
     bz.bzDecompress e.u.length e.c = some e.u))

/-- Total number of pending (buffered, unflushed) bytes. -/
def sumBuf (l : List Stream) : Nat := (l.map Stream.buflen).sum

theorem sumBuf_set (l : List Stream) (i : Nat) (st : Stream)
    (h : i < l.length) :
    sumBuf (l.set i st) + (l.getD i default).buflen
      = sumBuf l + st.buflen := by
  induction l generalizing i with
  | nil => simp at h
  | cons a r ih =>
    cases i with
    | zero => simp [sumBuf]; omega
    | succ j =>
      simp only [List.set_cons_succ, sumBuf, List.map_cons, List.sum_cons,
        List.getD_cons_succ]
      have := ih j (by simpa using h)
      simp only [sumBuf] at this
      omega

theorem relSlot_le (evs : List Ev) (i : Nat) (h : hasEvB evs i = true) :
    relSlot evs i + 4 ≤ bodyLen evs := by
  induction evs with
  | nil => simp [hasEvB] at h
  | cons f r ih =>
    rw [relSlot_cons, bodyLen_cons]
    by_cases hr : hasEvB r i
    · rw [if_pos hr]
      have := ih hr
      omega
    · rw [if_neg (by simp [hr])]
      rw [hasEvB_cons] at h
      simp only [Bool.or_eq_true, beq_iff_eq] at h
      have hf : f.stream = i := by
        rcases h with h | h
        · exact h
        · exact absurd h (by simp [hr])
      rw [if_pos hf]
      simp only [evSize]
      omega

/-- Invariant of a write session with `n` streams at level `lvl`, flush
history `evs`, per-stream bytes-written-so-far `w`, and `fut` bytes still
to come: the file is exactly the rendering of `evs`, every per-stream
record tracks its back-patch slot and pending buffer, and the whole
session stays below the u32 wraparound. -/
structure WPre (bz : Bzlib) (n lvl : Nat) (evs : List Ev)
    (w : Nat → List Nat) (fut : Nat) (si : StreamInfo) : Prop where
  hdata : si.fd.data = render n evs
  hwok : si.fd.writeOk = true
  hpos : si.fd.pos = 13 * n + bodyLen evs
  hcp : si.cur_pos = 13 * n + bodyLen evs
  hip : si.initial_pos = 0
  hns : si.num_streams = n
  hslen : si.s.length = n
  hbs1 : 1 ≤ si.bufsize
  hbsU : si.bufsize < U32
  hwf : ∀ e ∈ evs, EvWf bz n e
  hlh : ∀ i, i < n → (si.s.getD i default).last_head = lastHeadSlot n evs i
  hlvl : ∀ i, i < n → (si.s.getD i default).bzip_level = lvl
  hble : ∀ i, i < n → (si.s.getD i default).buflen
    = (si.s.getD i default).buf.length
  hbub : ∀ i, i < n → (si.s.getD i default).buflen ≤ si.bufsize
  hcontent : ∀ i, i < n →
    flatU (evsOf evs i) ++ (si.s.getD i default).buf = w i
  hbound : 13 * n + bodyLen evs + 14 * (sumBuf si.s + fut) < U32

/-- `WPre` plus strictly-unfull buffers (the rest state between writes). -/
structure WInv (bz : Bzlib) (n lvl : Nat) (evs : List Ev)
    (w : Nat → List Nat) (fut : Nat) (si : StreamInfo)
    extends WPre bz n lvl evs w fut si : Prop where
  hblt : ∀ i, i < n → (si.s.getD i default).buflen < si.bufsize

/-- The compression gateway, on a well-sized buffer, either keeps the
buffer (uncompressed fallback) or swaps in a strictly smaller payload the
codec inverts; in both cases the reported `c_len` is the payload length. -/
theorem compress_buf_cases (bz : Bzlib) (st : Stream) (cl : Nat)
    (hc : CodecOk bz) (hble : st.buflen = st.buf.length)
    (hcl : cl = st.buflen) (h1 : 1 ≤ st.buflen) (hU : st.buflen < U32) :
    ∃ c ct, compress_buf bz st CTYPE_NONE cl
        = ({ st with buf := c }, ct, c.length) ∧
      c.length ≤ st.buflen ∧
      ((ct = CTYPE_NONE ∧ c = st.buf) ∨
       (ct = CTYPE_BZIP2 ∧ c.length < st.buflen ∧
         bz.bzDecompress st.buf.length c = some st.buf)) := by
  have hself : ({ st with buf := st.buf } : Stream) = st := rfl
  have hdlen : (st.buflen + (U32 - 1)) % U32 = st.buflen - 1 := by
    have hU32 : 0 < U32 := by rw [U32_eq]; norm_num
    have h2 : st.buflen + (U32 - 1) = U32 + (st.buflen - 1) := by omega
    rw [h2, Nat.add_mod_left, Nat.mod_eq_of_lt (by omega)]
  subst hcl
  unfold compress_buf
  simp only [hdlen]
  by_cases hz : st.bzip_level = 0
  · rw [if_pos hz]
    exact ⟨st.buf, CTYPE_NONE, by rw [hself, hble], by omega,
      Or.inl ⟨rfl, rfl⟩⟩
  · rw [if_neg hz]
    by_cases hm : bz.mallocOk = false
    · rw [if_pos hm]
      exact ⟨st.buf, CTYPE_NONE, by rw [hself, hble], by omega,
        Or.inl ⟨rfl, rfl⟩⟩
    · rw [if_neg hm]
      cases hcz : bz.bzCompress (st.buflen - 1) st.buf st.bzip_level with
      | none =>
        simp only [hcz]
        exact ⟨st.buf, CTYPE_NONE, by rw [hself, hble], by omega,
          Or.inl ⟨rfl, rfl⟩⟩
      | some cbuf =>
        have hcc := hc (st.buflen - 1) st.buf st.bzip_level cbuf hcz
        have hlt : cbuf.length < st.buflen := by omega
        refine ⟨cbuf, CTYPE_BZIP2, ?_, by omega,
          Or.inr ⟨rfl, hlt, hcc.2⟩⟩
        simp only [hcz]
        rw [Nat.mod_eq_of_lt (by omega)]


/-- Writing a 13-byte chunk header and a payload at the end of the file
appends exactly the serialized header plus payload. -/
theorem write_hdr_chain (d : List Nat) (p a x y z : Nat) (c : List Nat)
    (k : Fd → Option StreamInfo) (hp : p = d.length) :
    ((write_u8 ⟨d, p, true⟩ a).bind fun fd =>
      (write_u32 fd x).bind fun fd =>
        (write_u32 fd y).bind fun fd =>
          (write_u32 fd z).bind fun fd =>
            (write_buf fd c).bind k)
    = k ⟨d ++ ((a % 256) :: (u32le x ++ (u32le y ++ (u32le z ++ c)))),
        p + 13 + c.length, true⟩ := by
  subst hp
  simp only [write_u8, write_u32_buf]
  simp only [write_buf_append, Option.some_bind, List.length_append,
    List.length_cons, List.length_nil, u32le_length]
  congr 1
  simp only [Fd.mk.injEq, List.append_assoc, List.singleton_append,
    and_true]
  simp


theorem sumBuf_getD_le (l : List Stream) (i : Nat) (h : i < l.length) :
    (l.getD i default).buflen ≤ sumBuf l := by
  induction l generalizing i with
  | nil => simp at h
  | cons a r ih =>
    cases i with
    | zero => simp [sumBuf]
    | succ j =>
      simp only [List.getD_cons_succ, sumBuf, List.map_cons, List.sum_cons]
      have := ih j (by simpa using h)
      simp only [sumBuf] at this
      omega

theorem lastHeadSlot_append_self (n : Nat) (evs : List Ev) (e : Ev) :
    lastHeadSlot n (evs ++ [e]) e.stream = 13 * n + bodyLen evs + 9 := by
  unfold lastHeadSlot
  have hhas : hasEvB (evs ++ [e]) e.stream = true := by
    rw [hasEvB_append]
    simp [hasEvB]
  rw [if_pos hhas, relSlot_append_self evs e e.stream rfl]
  omega

theorem lastHeadSlot_append_ne (n : Nat) (evs : List Ev) (e : Ev) (i : Nat)
    (h : e.stream ≠ i) :
    lastHeadSlot n (evs ++ [e]) i = lastHeadSlot n evs i := by
  unfold lastHeadSlot
  have hhas : hasEvB (evs ++ [e]) i = hasEvB evs i := by
    rw [hasEvB_append]
    simp [hasEvB, h]
  rw [hhas, relSlot_append_ne evs e i h]

theorem lastHeadSlot_le (n : Nat) (evs : List Ev) (i : Nat) (h : i < n) :
    lastHeadSlot n evs i + 4 ≤ 13 * n + bodyLen evs := by
  unfold lastHeadSlot
  by_cases hh : hasEvB evs i
  · rw [if_pos hh]
    have := relSlot_le evs i hh
    omega
  · rw [if_neg hh]
    omega

theorem flush_buffer_step (bz : Bzlib) {n lvl : Nat} {evs : List Ev}
    {w : Nat → List Nat} {fut : Nat} {si : StreamInfo} (s : Nat)
    (hw : WPre bz n lvl evs w fut si) (hs : s < n) (hc : CodecOk bz)
    (h1 : 1 ≤ (si.s.getD s default).buflen) :
    ∃ (e : Ev) (si' : StreamInfo),
      e.stream = s ∧ e.u = (si.s.getD s default).buf ∧
      flush_buffer bz si s = some si' ∧
      WPre bz n lvl (evs ++ [e]) w fut si' ∧
      si'.bufsize = si.bufsize ∧
      (∀ i, i < n → (si'.s.getD i default).buflen
        = if i = s then 0 else (si.s.getD i default).buflen) := by
  obtain ⟨hdata, hwok, hpos, hcp, hip, hns, hslen, hbs1, hbsU, hwf, hlh,
    hlvl, hble, hbub, hcontent, hbound⟩ := hw
  have hbuflt : (si.s.getD s default).buflen < U32 :=
    lt_of_le_of_lt (hbub s hs) hbsU
  obtain ⟨c, ct, hcomp, hclen, hdis⟩ :=
    compress_buf_cases bz
      ⟨(si.cur_pos + 9) % U32, (si.s.getD s default).buf,
        (si.s.getD s default).buflen, (si.s.getD s default).bufp,
        (si.s.getD s default).bzip_level⟩
      (si.s.getD s default).buflen hc (hble s hs) rfl h1 hbuflt
  dsimp only at hcomp hclen hdis
  have hsB : (si.s.getD s default).buflen ≤ sumBuf si.s :=
    sumBuf_getD_le si.s s (by rw [hslen]; exact hs)
  have hLlen : si.fd.data.length = 13 * n + bodyLen evs := by
    rw [hdata, render_length]
  have hslot4 : (si.s.getD s default).last_head + 4
      ≤ 13 * n + bodyLen evs := by
    rw [hlh s hs]
    exact lastHeadSlot_le n evs s hs
  have hD2len : (writeBytesAt si.fd.data
      (si.initial_pos + (si.s.getD s default).last_head)
      (u32le si.cur_pos)).length = 13 * n + bodyLen evs := by
    rw [writeBytesAt_length, u32le_length, hLlen, hip]
    omega
  unfold flush_buffer
  simp only [seekto, Option.bind_eq_bind]
  rw [write_u32_buf,
    @write_buf_some ⟨si.fd.data,
      si.initial_pos + (si.s.getD s default).last_head, si.fd.writeOk⟩
      (u32le si.cur_pos) hwok,
    Option.some_bind]
  rw [hcomp]
  dsimp only
  rw [hwok, padTake_self, write_hdr_chain]
  rotate_left
  · rw [hD2len]
    omega
  have hmod9 : (si.cur_pos + 9) % U32 = si.cur_pos + 9 := by
    apply Nat.mod_eq_of_lt
    omega
  have hmodc : ((si.cur_pos + 13) % U32 + c.length) % U32
      = si.cur_pos + 13 + c.length := by
    rw [Nat.mod_eq_of_lt (show si.cur_pos + 13 < U32 by omega),
      Nat.mod_eq_of_lt (by omega)]
  have hbl' : bodyLen (evs
      ++ [⟨s, (si.s.getD s default).buf, c, ct⟩])
      = bodyLen evs + 13 + c.length := by
    rw [bodyLen_append]
    simp [bodyLen, evSize]
    omega
  have hlt' : s < si.s.length := by rw [hslen]; exact hs
  have hset := sumBuf_set si.s s
    ⟨(si.cur_pos + 9) % U32, [], 0, (si.s.getD s default).bufp,
      (si.s.getD s default).bzip_level⟩ hlt'
  dsimp only at hset
  refine ⟨⟨s, (si.s.getD s default).buf, c, ct⟩, _, rfl, rfl, rfl,
    ?_, rfl, ?_⟩
  · refine ⟨?_, rfl, ?_, ?_, hip, hns, ?_, hbs1, hbsU, ?_, ?_, ?_, ?_,
      ?_, ?_, ?_⟩
    · show writeBytesAt si.fd.data
          (si.initial_pos + (si.s.getD s default).last_head)
          (u32le si.cur_pos)
        ++ (ct % 256 :: (u32le c.length
          ++ (u32le (si.s.getD s default).buflen ++ (u32le 0 ++ c))))
        = render n (evs ++ [⟨s, (si.s.getD s default).buf, c, ct⟩])
      rw [render_step n evs ⟨s, (si.s.getD s default).buf, c, ct⟩ hs]
      rw [hdata, hip, Nat.zero_add, hlh s hs, hcp, ← hble s hs]
      simp [chunkHdr, List.append_assoc]
    · show si.initial_pos + si.cur_pos + 13 + c.length
        = 13 * n + bodyLen (evs ++ [⟨s, (si.s.getD s default).buf, c, ct⟩])
      rw [hbl', hip, hcp]
      omega
    · show ((si.cur_pos + 13) % U32 + c.length) % U32
        = 13 * n + bodyLen (evs ++ [⟨s, (si.s.getD s default).buf, c, ct⟩])
      rw [hmodc, hbl', hcp]
      omega
    · show (si.s.set s _).length = n
      rw [List.length_set]
      exact hslen
    · intro e' he'
      rw [List.mem_append] at he'
      rcases he' with he' | he'
      · exact hwf e' he'
      · rw [List.mem_singleton] at he'
        subst he'
        refine ⟨hs, ?_, ?_, ?_, ?_⟩
        · show 1 ≤ (si.s.getD s default).buf.length
          rw [← hble s hs]
          exact h1
        · show (si.s.getD s default).buf.length < U32
          rw [← hble s hs]
          exact hbuflt
        · show c.length ≤ (si.s.getD s default).buf.length
          rw [← hble s hs]
          exact hclen
        · rcases hdis with ⟨hct, h2⟩ | ⟨hct, _, h2⟩
          · exact Or.inl ⟨hct, h2⟩
          · exact Or.inr ⟨hct, h2⟩
    · intro i hi
      by_cases his : i = s
      · subst his
        rw [getD_set_self, if_pos hlt']
        show (si.cur_pos + 9) % U32
          = lastHeadSlot n (evs ++ [⟨i, (si.s.getD i default).buf, c, ct⟩]) i
        rw [hmod9,
          lastHeadSlot_append_self n evs ⟨i, (si.s.getD i default).buf, c, ct⟩,
          hcp]
      · rw [getD_set_ne _ _ _ _ _ (fun hh => his hh.symm), hlh i hi,
          lastHeadSlot_append_ne n evs _ i (fun hh => his (hh.symm))]
    · intro i hi
      by_cases his : i = s
      · subst his
        rw [getD_set_self, if_pos hlt']
        exact hlvl i hi
      · rw [getD_set_ne _ _ _ _ _ (fun hh => his hh.symm)]
        exact hlvl i hi
    · intro i hi
      by_cases his : i = s
      · subst his
        rw [getD_set_self, if_pos hlt']
        rfl
      · rw [getD_set_ne _ _ _ _ _ (fun hh => his hh.symm)]
        exact hble i hi
    · intro i hi
      by_cases his : i = s
      · subst his
        rw [getD_set_self, if_pos hlt']
        exact Nat.zero_le _
      · rw [getD_set_ne _ _ _ _ _ (fun hh => his hh.symm)]
        exact hbub i hi
    · intro i hi
      rw [evsOf_append, flatU_append]
      by_cases his : i = s
      · subst his
        rw [getD_set_self, if_pos hlt']
        show flatU (evsOf evs i)
            ++ flatU (evsOf [⟨i, (si.s.getD i default).buf, c, ct⟩] i)
            ++ [] = w i
        have hone : evsOf [(⟨i, (si.s.getD i default).buf, c, ct⟩ : Ev)] i
            = [⟨i, (si.s.getD i default).buf, c, ct⟩] := by
          simp [evsOf]
        rw [hone]
        show flatU (evsOf evs i)
            ++ ((si.s.getD i default).buf ++ flatU []) ++ [] = w i
        show flatU (evsOf evs i)
            ++ ((si.s.getD i default).buf ++ []) ++ [] = w i
        rw [List.append_nil, List.append_nil]
        exact hcontent i hi
      · rw [getD_set_ne _ _ _ _ _ (fun hh => his hh.symm)]
        have hnone : evsOf [(⟨s, (si.s.getD s default).buf, c, ct⟩ : Ev)] i
            = [] := by
          simp [evsOf]
          exact fun hh => his hh.symm
        rw [hnone]
        show flatU (evsOf evs i) ++ [] ++ (si.s.getD i default).buf = w i
        rw [List.append_nil]
        exact hcontent i hi
    · show 13 * n
          + bodyLen (evs ++ [⟨s, (si.s.getD s default).buf, c, ct⟩])
          + 14 * (sumBuf (si.s.set s _) + fut) < U32
      rw [hbl']
      omega
  · intro i hi
    by_cases his : i = s
    · subst his
      rw [getD_set_self, if_pos hlt', if_pos rfl]
    · rw [getD_set_ne _ _ _ _ _ (fun hh => his hh.symm), if_neg his]


theorem WPre_congr_w (bz : Bzlib) {n lvl : Nat} {evs : List Ev}
    {w1 w2 : Nat → List Nat} {fut : Nat} {si : StreamInfo}
    (h : WPre bz n lvl evs w1 fut si)
    (hw : ∀ i, i < n → w1 i = w2 i) :
    WPre bz n lvl evs w2 fut si := by
  obtain ⟨h1, h2, h3, h4, h5, h6, h7, h8, h9, h10, h11, h12, h13, h14,
    h15, h16⟩ := h
  exact ⟨h1, h2, h3, h4, h5, h6, h7, h8, h9, h10, h11, h12, h13, h14,
    fun i hi => by rw [← hw i hi]; exact h15 i hi, h16⟩

theorem WInv_congr_w (bz : Bzlib) {n lvl : Nat} {evs : List Ev}
    {w1 w2 : Nat → List Nat} {fut : Nat} {si : StreamInfo}
    (h : WInv bz n lvl evs w1 fut si)
    (hw : ∀ i, i < n → w1 i = w2 i) :
    WInv bz n lvl evs w2 fut si :=
  ⟨WPre_congr_w bz h.toWPre hw, h.hblt⟩

theorem write_stream_winv (bz : Bzlib) {n lvl : Nat} (hc : CodecOk bz) :
    ∀ (p : List Nat) {evs : List Ev} {w : Nat → List Nat} {fut : Nat}
      {si : StreamInfo} (s : Nat),
      WInv bz n lvl evs w (p.length + fut) si → s < n →
      ∃ (evs2 : List Ev) (si' : StreamInfo),
        write_stream bz si s p = some si' ∧
        WInv bz n lvl (evs ++ evs2)
          (fun i => if i = s then w i ++ p else w i) fut si' := by
  suffices H : ∀ (m : Nat) (p : List Nat), p.length ≤ m →
      ∀ {evs : List Ev} {w : Nat → List Nat} {fut : Nat}
        {si : StreamInfo} (s : Nat),
        WInv bz n lvl evs w (p.length + fut) si → s < n →
        ∃ (evs2 : List Ev) (si' : StreamInfo),
          write_stream bz si s p = some si' ∧
          WInv bz n lvl (evs ++ evs2)
            (fun i => if i = s then w i ++ p else w i) fut si' by
    intro p evs w fut si s h hs
    exact H p.length p le_rfl s h hs
  intro m
  induction m with
  | zero =>
    intro p hp evs w fut si s h hs
    have hpe : p = [] := List.length_eq_zero.mp (by omega)
    subst hpe
    refine ⟨[], si, ?_, ?_⟩
    · rw [write_stream]
      simp
    · rw [List.append_nil]
      refine WInv_congr_w bz ?_ (fun i hi => by
        by_cases his : i = s
        · rw [if_pos his, List.append_nil]
        · rw [if_neg his])
      simpa using h
  | succ m ih =>
    intro p hp evs w fut si s h hs
    by_cases hpe : p = []
    · subst hpe
      refine ⟨[], si, ?_, ?_⟩
      · rw [write_stream]
        simp
      · rw [List.append_nil]
        refine WInv_congr_w bz ?_ (fun i hi => by
          by_cases his : i = s
          · rw [if_pos his, List.append_nil]
          · rw [if_neg his])
        simpa using h
    · have hk1 : 1 ≤ min (si.bufsize - (si.s.getD s default).buflen)
          p.length := by
        have hb := h.hblt s hs
        have hl : p.length ≠ 0 := fun hh => hpe (List.length_eq_zero.mp hh)
        omega
      rw [write_stream, dif_neg hpe, dif_neg (by omega)]
      dsimp only
      obtain ⟨⟨hdata, hwok, hpos, hcp, hip, hns, hslen, hbs1, hbsU, hwf,
        hlh, hlvl, hble, hbub, hcontent, hbound⟩, hblt⟩ := h
      have hlt' : s < si.s.length := by rw [hslen]; exact hs
      generalize hK : (si.bufsize - (si.s.getD s default).buflen)
        ⊓ p.length = K
      rw [hK] at hk1
      have hKle : K ≤ p.length := by omega
      have hKbuf : (si.s.getD s default).buflen + K ≤ si.bufsize := by
        have hb := hblt s hs
        omega
      have hset := sumBuf_set si.s s
        ⟨(si.s.getD s default).last_head,
          (si.s.getD s default).buf ++ List.take K p,
          (si.s.getD s default).buflen + K,
          (si.s.getD s default).bufp,
          (si.s.getD s default).bzip_level⟩ hlt'
      dsimp only at hset
      have hWPreA : WPre bz n lvl evs
          (fun i => if i = s then w i ++ List.take K p else w i)
          ((List.drop K p).length + fut)
          { s := si.s.set s
              ⟨(si.s.getD s default).last_head,
                (si.s.getD s default).buf ++ List.take K p,
                (si.s.getD s default).buflen + K,
                (si.s.getD s default).bufp,
                (si.s.getD s default).bzip_level⟩,
            num_streams := si.num_streams, fd := si.fd,
            bufsize := si.bufsize, cur_pos := si.cur_pos,
            initial_pos := si.initial_pos,
            total_read := si.total_read } := by
        refine ⟨hdata, hwok, hpos, hcp, hip, hns, ?_, hbs1, hbsU, hwf,
          ?_, ?_, ?_, ?_, ?_, ?_⟩
        · show (si.s.set s _).length = n
          rw [List.length_set]
          exact hslen
        · intro i hi
          by_cases his : i = s
          · subst his
            rw [getD_set_self, if_pos hlt']
            exact hlh i hi
          · rw [getD_set_ne _ _ _ _ _ (fun hh => his hh.symm)]
            exact hlh i hi
        · intro i hi
          by_cases his : i = s
          · subst his
            rw [getD_set_self, if_pos hlt']
            exact hlvl i hi
          · rw [getD_set_ne _ _ _ _ _ (fun hh => his hh.symm)]
            exact hlvl i hi
        · intro i hi
          by_cases his : i = s
          · subst his
            rw [getD_set_self, if_pos hlt']
            show (si.s.getD i default).buflen + K
              = ((si.s.getD i default).buf ++ List.take K p).length
            rw [List.length_append, List.length_take, ← hble i hi]
            omega
          · rw [getD_set_ne _ _ _ _ _ (fun hh => his hh.symm)]
            exact hble i hi
        · intro i hi
          by_cases his : i = s
          · subst his
            rw [getD_set_self, if_pos hlt']
            exact hKbuf
          · rw [getD_set_ne _ _ _ _ _ (fun hh => his hh.symm)]
            exact hbub i hi
        · intro i hi
          by_cases his : i = s
          · subst his
            rw [getD_set_self, if_pos hlt', if_pos rfl]
            show flatU (evsOf evs i)
              ++ ((si.s.getD i default).buf ++ List.take K p)
              = w i ++ List.take K p
            rw [← List.append_assoc, hcontent i hi]
          · rw [getD_set_ne _ _ _ _ _ (fun hh => his hh.symm), if_neg his]
            exact hcontent i hi
        · show 13 * n + bodyLen evs + 14 * (sumBuf (si.s.set s _)
              + ((List.drop K p).length + fut)) < U32
          rw [List.length_drop]
          omega
      by_cases hfull : (si.s.getD s default).buflen + K = si.bufsize
      · rw [if_pos hfull]
        obtain ⟨e, siB, heS, heU, heq, hWPreB, hbsB, hrepB⟩ :=
          flush_buffer_step bz s hWPreA hs hc (by
            show 1 ≤ ((si.s.set s _).getD s default).buflen
            rw [getD_set_self, if_pos hlt']
            show 1 ≤ (si.s.getD s default).buflen + K
            omega)
        rw [heq]
        have hWInvB : WInv bz n lvl (evs ++ [e])
            (fun i => if i = s then w i ++ List.take K p else w i)
            ((List.drop K p).length + fut) siB :=
          ⟨hWPreB, by
            intro i hi
            rw [hrepB i hi]
            by_cases his : i = s
            · rw [if_pos his, hbsB]
              show 0 < si.bufsize
              omega
            · rw [if_neg his, hbsB]
              show ((si.s.set s _).getD i default).buflen < si.bufsize
              rw [getD_set_ne _ _ _ _ _ (fun hh => his hh.symm)]
              exact hblt i hi⟩
        obtain ⟨evs3, si', hws, hWI'⟩ := ih (List.drop K p)
          (by rw [List.length_drop]; omega) s hWInvB hs
        refine ⟨e :: evs3, si', hws, ?_⟩
        rw [List.append_assoc, List.singleton_append] at hWI'
        refine WInv_congr_w bz hWI' (fun i hi => ?_)
        by_cases his : i = s
        · rw [if_pos his, if_pos his, if_pos his, List.append_assoc,
            List.take_append_drop]
        · rw [if_neg his, if_neg his, if_neg his]
      · rw [if_neg hfull]
        have hWInvA : WInv bz n lvl evs
            (fun i => if i = s then w i ++ List.take K p else w i)
            ((List.drop K p).length + fut)
            { s := si.s.set s
                ⟨(si.s.getD s default).last_head,
                  (si.s.getD s default).buf ++ List.take K p,
                  (si.s.getD s default).buflen + K,
                  (si.s.getD s default).bufp,
                  (si.s.getD s default).bzip_level⟩,
              num_streams := si.num_streams, fd := si.fd,
              bufsize := si.bufsize, cur_pos := si.cur_pos,
              initial_pos := si.initial_pos,
              total_read := si.total_read } :=
          ⟨hWPreA, by
            intro i hi
            by_cases his : i = s
            · subst his
              rw [getD_set_self, if_pos hlt']
              show (si.s.getD i default).buflen + K < si.bufsize
              omega
            · rw [getD_set_ne _ _ _ _ _ (fun hh => his hh.symm)]
              exact hblt i hi⟩
        obtain ⟨evs3, si', hws, hWI'⟩ := ih (List.drop K p)
          (by rw [List.length_drop]; omega) s hWInvA hs
        refine ⟨evs3, si', hws, ?_⟩
        refine WInv_congr_w bz hWI' (fun i hi => ?_)
        by_cases his : i = s
        · rw [if_pos his, if_pos his, if_pos his, List.append_assoc,
            List.take_append_drop]
        · rw [if_neg his, if_neg his, if_neg his]


/-- Total number of payload bytes in a write plan. -/
def planBytes : List (Nat × List Nat) → Nat
  | [] => 0
  | (_, bs) :: r => bs.length + planBytes r

/-- The bytes a plan writes to stream `i`, in order. -/
def writtenTo : List (Nat × List Nat) → Nat → List Nat
  | [], _ => []
  | (j, bs) :: r, i => (if j = i then bs else []) ++ writtenTo r i

theorem planBytes_cons (j : Nat) (bs : List Nat)
    (r : List (Nat × List Nat)) :
    planBytes ((j, bs) :: r) = bs.length + planBytes r := rfl

theorem writtenTo_cons (j : Nat) (bs : List Nat)
    (r : List (Nat × List Nat)) (i : Nat) :
    writtenTo ((j, bs) :: r) i
      = (if j = i then bs else []) ++ writtenTo r i := rfl

theorem runPlan_winv (bz : Bzlib) {n lvl : Nat} (hc : CodecOk bz) :
    ∀ (plan : List (Nat × List Nat)) {evs : List Ev} {w : Nat → List Nat}
      {si : StreamInfo},
      WInv bz n lvl evs w (planBytes plan) si →
      (∀ q ∈ plan, q.1 < n) →
      ∃ evs2 si', runPlan bz si plan = some si' ∧
        WInv bz n lvl (evs ++ evs2)
          (fun i => w i ++ writtenTo plan i) 0 si' := by
  intro plan
  induction plan with
  | nil =>
    intro evs w si h _
    refine ⟨[], si, rfl, ?_⟩
    rw [List.append_nil]
    exact WInv_congr_w bz h (fun i hi => (List.append_nil (w i)).symm)
  | cons q rest ih =>
    obtain ⟨j, bs⟩ := q
    intro evs w si h hmem
    have hj : j < n := hmem (j, bs) (List.mem_cons_self _ _)
    obtain ⟨evs2, si1, hws, hWI1⟩ := write_stream_winv bz hc bs j h hj
    obtain ⟨evs3, si', hrp, hWI'⟩ := ih hWI1
      (fun q hq => hmem q (List.mem_cons_of_mem _ hq))
    refine ⟨evs2 ++ evs3, si', ?_, ?_⟩
    · show (do
        let si1 ← write_stream bz si j bs
        runPlan bz si1 rest) = some si'
      rw [hws]
      simp only [Option.bind_eq_bind, Option.some_bind]
      exact hrp
    · rw [← List.append_assoc]
      refine WInv_congr_w bz hWI' (fun i hi => ?_)
      rw [writtenTo_cons]
      by_cases hij : i = j
      · rw [if_pos hij, if_pos (hij.symm), List.append_assoc]
      · rw [if_neg hij, if_neg (fun hh => hij hh.symm),
          List.nil_append]

theorem close_out_winv (bz : Bzlib) {n lvl : Nat} (hc : CodecOk bz) :
    ∀ (k i : Nat) {evs : List Ev} {w : Nat → List Nat} {si : StreamInfo},
      WInv bz n lvl evs w 0 si → i + k = n →
      ∃ evs2 si', close_out_loop bz si i k = some si' ∧
        WInv bz n lvl (evs ++ evs2) w 0 si' ∧
        (∀ j, j < i → (si'.s.getD j default).buflen
          = (si.s.getD j default).buflen) ∧
        (∀ j, i ≤ j → j < n → (si'.s.getD j default).buflen = 0) := by
  intro k
  induction k with
  | zero =>
    intro i evs w si h hik
    refine ⟨[], si, rfl, by rw [List.append_nil]; exact h,
      fun j _ => rfl, fun j hj1 hj2 => by omega⟩
  | succ k ih =>
    intro i evs w si h hik
    have hi : i < n := by omega
    have hunf : close_out_loop bz si i (k + 1)
        = if (si.s.getD i default).buflen ≠ 0 then
            (match flush_buffer bz si i with
              | none => none
              | some si2 => close_out_loop bz si2 (i + 1) k)
          else close_out_loop bz si (i + 1) k := rfl
    rw [hunf]
    by_cases hz : (si.s.getD i default).buflen ≠ 0
    · rw [if_pos hz]
      obtain ⟨e, siB, heS, heU, heq, hWPreB, hbsB, hrepB⟩ :=
        flush_buffer_step bz i h.toWPre hi hc (by omega)
      have hWInvB : WInv bz n lvl (evs ++ [e]) w 0 siB :=
        ⟨hWPreB, by
          intro j hj
          rw [hrepB j hj, hbsB]
          by_cases hji : j = i
          · rw [if_pos hji]
            have := h.hbs1
            omega
          · rw [if_neg hji]
            exact h.hblt j hj⟩
      rw [heq]
      obtain ⟨evs3, si', hcl, hWI', hfr, hzero⟩ := ih (i + 1) hWInvB
        (by omega)
      refine ⟨e :: evs3, si', ?_, ?_, ?_, ?_⟩
      · exact hcl
      · rw [List.append_assoc, List.singleton_append] at hWI'
        exact hWI'
      · intro j hj
        rw [hfr j (by omega), hrepB j (by omega), if_neg (by omega)]
      · intro j hj1 hj2
        by_cases hji : j = i
        · subst hji
          rw [hfr j (by omega), hrepB j hj2, if_pos rfl]
        · exact hzero j (by omega) hj2
    · rw [if_neg hz]
      obtain ⟨evs3, si', hcl, hWI', hfr, hzero⟩ := ih (i + 1) h (by omega)
      refine ⟨evs3, si', hcl, hWI', ?_, ?_⟩
      · intro j hj
        exact hfr j (by omega)
      · intro j hj1 hj2
        by_cases hji : j = i
        · subst hji
          rw [hfr j (by omega)]
          omega
        · exact hzero j (by omega) hj2


/-- The per-stream records `open_stream_out` builds. -/
def initWStreams (lvl : Nat) : Nat → Nat → List Stream
  | _, 0 => []
  | cp, k + 1 =>
    { last_head := (cp + 9) % U32, buf := [], buflen := 0, bufp := 0,
      bzip_level := lvl } :: initWStreams lvl ((cp + 13) % U32) k

theorem initWStreams_cons (lvl cp k : Nat) :
    initWStreams lvl cp (k + 1)
      = { last_head := (cp + 9) % U32, buf := [], buflen := 0, bufp := 0,
          bzip_level := lvl } :: initWStreams lvl ((cp + 13) % U32) k := rfl

theorem initWStreams_length (lvl : Nat) :
    ∀ (k cp : Nat), (initWStreams lvl cp k).length = k := by
  intro k
  induction k with
  | zero => intro cp; rfl
  | succ m ih =>
    intro cp
    rw [initWStreams_cons, List.length_cons, ih]

theorem sumBuf_initWStreams (lvl : Nat) :
    ∀ (k cp : Nat), sumBuf (initWStreams lvl cp k) = 0 := by
  intro k
  induction k with
  | zero => intro cp; rfl
  | succ m ih =>
    intro cp
    rw [initWStreams_cons]
    simp [sumBuf] at ih ⊢
    exact ih _

theorem initWStreams_getD (lvl : Nat) :
    ∀ (k cp j : Nat), j < k →
      (initWStreams lvl cp k).getD j default
        = { last_head := (cp + 13 * j + 9) % U32, buf := [], buflen := 0,
            bufp := 0, bzip_level := lvl } := by
  intro k
  induction k with
  | zero => intro cp j hj; omega
  | succ m ih =>
    intro cp j hj
    rw [initWStreams_cons]
    cases j with
    | zero =>
      rw [List.getD_cons_zero]
    | succ j' =>
      rw [List.getD_cons_succ, ih _ j' (by omega)]
      congr 1
      rw [Nat.add_assoc, Nat.mod_add_mod]
      congr 1
      omega

/-- `initHdrsFrom` over an empty event list does not depend on the stream
counter: every header is the all-zero placeholder. -/
theorem initHdrsFrom_nil (n : Nat) :
    ∀ (k i i' : Nat), initHdrsFrom n [] i k = initHdrsFrom n [] i' k := by
  intro k
  induction k with
  | zero => intro i i'; rfl
  | succ m ih =>
    intro i i'
    show chunkHdr CTYPE_NONE 0 0 (nextPosB [] (13 * n) i)
        ++ initHdrsFrom n [] (i + 1) m
      = chunkHdr CTYPE_NONE 0 0 (nextPosB [] (13 * n) i')
        ++ initHdrsFrom n [] (i' + 1) m
    have hz : ∀ j, nextPosB ([] : List Ev) (13 * n) j = 0 := fun _ => rfl
    rw [hz, hz, ih (i + 1) (i' + 1)]

theorem initHeaderLoop_run (lvl n : Nat) :
    ∀ (k : Nat) (d : List Nat) (cp : Nat), cp < U32 →
      initHeaderLoop ⟨d, d.length, true⟩ cp k lvl
        = (⟨d ++ initHdrsFrom n [] 0 k, d.length + 13 * k, true⟩,
           (cp + 13 * k) % U32, initWStreams lvl cp k) := by
  intro k
  induction k with
  | zero =>
    intro d cp hcp
    have h1 : initHdrsFrom n [] 0 0 = [] := rfl
    have h2 : initHeaderLoop ⟨d, d.length, true⟩ cp 0 lvl
        = (⟨d, d.length, true⟩, cp, []) := rfl
    have h3 : initWStreams lvl cp 0 = [] := rfl
    rw [h2, h1, h3, List.append_nil]
    have hfd : (⟨d, d.length, true⟩ : Fd) = ⟨d, d.length + 13 * 0, true⟩ :=
      congrArg (fun p => (⟨d, p, true⟩ : Fd)) (by omega)
    have hcp0 : cp = (cp + 13 * 0) % U32 := by
      have h4 : cp + 13 * 0 = cp := by omega
      rw [h4, Nat.mod_eq_of_lt hcp]
    rw [← hfd, ← hcp0]
  | succ m ih =>
    intro d cp hcp
    have hU32pos : 0 < U32 := by rw [U32_eq]; norm_num
    have ih' : ∀ (d' : List Nat) (p : Nat), p = d'.length →
        initHeaderLoop ⟨d', p, true⟩ ((cp + 13) % U32) m lvl
          = (⟨d' ++ initHdrsFrom n [] 0 m, p + 13 * m, true⟩,
             ((cp + 13) % U32 + 13 * m) % U32,
             initWStreams lvl ((cp + 13) % U32) m) := by
      intro d' p hp
      subst hp
      exact ih d' ((cp + 13) % U32) (Nat.mod_lt _ hU32pos)
    have hw8 : write_u8 ⟨d, d.length, true⟩ CTYPE_NONE
        = some ⟨d ++ [3], d.length + 1, true⟩ := by
      show write_buf _ [CTYPE_NONE % 256] = _
      rw [write_buf_append [CTYPE_NONE % 256] rfl rfl]
      rfl
    have hw32 : ∀ (d' : List Nat) (p : Nat), p = d'.length →
        write_u32 ⟨d', p, true⟩ 0
          = some ⟨d' ++ u32le 0, p + 4, true⟩ := by
      intro d' p hp
      subst hp
      rw [write_u32_buf, write_buf_append (u32le 0) rfl rfl]
      rfl
    simp only [initHeaderLoop]
    rw [hw8]
    simp only [Option.getD_some]
    rw [hw32 (d ++ [3]) (d.length + 1) (by simp)]
    simp only [Option.getD_some]
    rw [hw32 ((d ++ [3]) ++ u32le 0) (d.length + 1 + 4)
      (by simp [u32le_length])]
    simp only [Option.getD_some]
    rw [hw32 (((d ++ [3]) ++ u32le 0) ++ u32le 0) (d.length + 1 + 4 + 4)
      (by simp [u32le_length])]
    simp only [Option.getD_some]
    rw [ih' ((((d ++ [3]) ++ u32le 0) ++ u32le 0) ++ u32le 0)
      (d.length + 1 + 4 + 4 + 4) (by simp [u32le_length])]
    simp only [Prod.mk.injEq]
    refine ⟨?_, ?_, ?_⟩
    · have hh : initHdrsFrom n [] 0 (m + 1)
          = chunkHdr CTYPE_NONE 0 0 (nextPosB [] (13 * n) 0)
            ++ initHdrsFrom n [] 1 m := rfl
      have hz : nextPosB ([] : List Ev) (13 * n) 0 = 0 := rfl
      rw [Fd.mk.injEq]
      refine ⟨?_, ?_, rfl⟩
      · rw [hh, hz, initHdrsFrom_nil n m 1 0]
        have hch : chunkHdr CTYPE_NONE 0 0 0
            = 3 :: (u32le 0 ++ u32le 0 ++ u32le 0) := rfl
        rw [hch]
        simp [List.append_assoc]
      · omega
    · rw [Nat.mod_add_mod]
      congr 1
      omega
    · rw [initWStreams_cons]

theorem open_stream_out_run (n lvl : Nat) (hn13 : 13 * n < U32) :
    open_stream_out ⟨[], 0, true⟩ n lvl
      = some { s := initWStreams lvl 0 n, num_streams := n,
               fd := ⟨initHdrsFrom n [] 0 n, 13 * n, true⟩,
               bufsize := if lvl = 0 then 100 * 1024 else 100 * 1024 * lvl,
               cur_pos := (0 + 13 * n) % U32, initial_pos := 0,
               total_read := 0 } := by
  have hU32pos : 0 < U32 := by rw [U32_eq]; norm_num
  have h0 : initHeaderLoop ⟨[], 0, true⟩ 0 n lvl
      = (⟨[] ++ initHdrsFrom n [] 0 n, 0 + 13 * n, true⟩,
         (0 + 13 * n) % U32, initWStreams lvl 0 n) :=
    initHeaderLoop_run lvl n n [] 0 hU32pos
  rw [List.nil_append] at h0
  unfold open_stream_out
  rw [h0]
  have hz : (0 : Nat) + 13 * n = 13 * n := by omega
  rw [hz]
  done



theorem writerFile_render (bz : Bzlib) (n lvl : Nat)
    (plan : List (Nat × List Nat)) (hc : CodecOk bz)
    (hlvl9 : lvl ≤ 9) (hmem : ∀ q ∈ plan, q.1 < n)
    (hbound : 13 * n + 14 * planBytes plan + 14 < U32) :
    ∃ evs, writerFile bz n lvl plan = some (render n evs) ∧
      (∀ e ∈ evs, EvWf bz n e) ∧
      13 * n + bodyLen evs < U32 ∧
      (∀ i, i < n → flatU (evsOf evs i) = writtenTo plan i) := by
  have hU32pos : 0 < U32 := by rw [U32_eq]; norm_num
  have hn13 : 13 * n < U32 := by omega
  have hmod : (0 + 13 * n) % U32 = 13 * n := by
    rw [Nat.zero_add, Nat.mod_eq_of_lt hn13]
  have hbs1 : 1 ≤ (if lvl = 0 then 100 * 1024 else 100 * 1024 * lvl) := by
    by_cases hl : lvl = 0
    · rw [if_pos hl]
      norm_num
    · rw [if_neg hl]
      have : 1 ≤ lvl := by omega
      calc 1 ≤ 100 * 1024 * 1 := by norm_num
        _ ≤ 100 * 1024 * lvl := by
          exact Nat.mul_le_mul_left _ this
  have hbsU : (if lvl = 0 then 100 * 1024 else 100 * 1024 * lvl) < U32 := by
    rw [U32_eq]
    by_cases hl : lvl = 0
    · rw [if_pos hl]
      norm_num
    · rw [if_neg hl]
      calc 100 * 1024 * lvl ≤ 100 * 1024 * 9 :=
          Nat.mul_le_mul_left _ hlvl9
        _ < 4294967296 := by norm_num
  have hWI0 : WInv bz n lvl [] (fun _ => []) (planBytes plan)
      { s := initWStreams lvl 0 n, num_streams := n,
        fd := ⟨initHdrsFrom n [] 0 n, 13 * n, true⟩,
        bufsize := if lvl = 0 then 100 * 1024 else 100 * 1024 * lvl,
        cur_pos := (0 + 13 * n) % U32, initial_pos := 0,
        total_read := 0 } := by
    refine ⟨⟨?_, rfl, ?_, ?_, rfl, rfl, ?_, hbs1, hbsU, ?_, ?_, ?_, ?_,
      ?_, ?_, ?_⟩, ?_⟩
    · show initHdrsFrom n [] 0 n = render n []
      unfold render
      have hb : bodyBytes ([] : List Ev) (13 * n) = [] := rfl
      rw [hb, List.append_nil]
    · show 13 * n = 13 * n + bodyLen []
      have hb : bodyLen ([] : List Ev) = 0 := rfl
      omega
    · show (0 + 13 * n) % U32 = 13 * n + bodyLen []
      have hb : bodyLen ([] : List Ev) = 0 := rfl
      rw [hmod]
      omega
    · show (initWStreams lvl 0 n).length = n
      exact initWStreams_length lvl n 0
    · intro e he
      simp at he
    · intro i hi
      rw [initWStreams_getD lvl n 0 i hi]
      show (0 + 13 * i + 9) % U32 = lastHeadSlot n [] i
      have hhe : hasEvB ([] : List Ev) i = false := rfl
      unfold lastHeadSlot
      rw [hhe]
      simp only [Bool.false_eq_true, if_false]
      rw [Nat.zero_add, Nat.mod_eq_of_lt (by omega)]
    · intro i hi
      rw [initWStreams_getD lvl n 0 i hi]
    · intro i hi
      rw [initWStreams_getD lvl n 0 i hi]
      rfl
    · intro i hi
      rw [initWStreams_getD lvl n 0 i hi]
      exact Nat.zero_le _
    · intro i hi
      rw [initWStreams_getD lvl n 0 i hi]
      rfl
    · show 13 * n + bodyLen [] + 14 * (sumBuf (initWStreams lvl 0 n)
          + planBytes plan) < U32
      rw [sumBuf_initWStreams lvl n 0]
      have hb : bodyLen ([] : List Ev) = 0 := rfl
      omega
    · intro i hi
      rw [initWStreams_getD lvl n 0 i hi]
      exact hbs1
  obtain ⟨evs2, si1, hrun, hWI1⟩ := runPlan_winv bz hc plan hWI0 hmem
  obtain ⟨evs3, si2, hclose, hWI2, hfr, hzero⟩ :=
    close_out_winv bz hc n 0 hWI1 (by omega)
  rw [List.nil_append] at hWI1 hWI2
  refine ⟨evs2 ++ evs3, ?_, ?_, ?_, ?_⟩
  · unfold writerFile
    rw [open_stream_out_run n lvl hn13]
    simp only [Option.bind_eq_bind, Option.some_bind]
    rw [hrun]
    simp only [Option.some_bind]
    unfold close_stream_out
    rw [hWI1.toWPre.hns, hclose]
    simp only [Option.some_bind, Option.pure_def, Option.some.injEq]
    exact hWI2.toWPre.hdata
  · exact hWI2.toWPre.hwf
  · have hb := hWI2.toWPre.hbound
    omega
  · intro i hi
    have hc2 := hWI2.toWPre.hcontent i hi
    have hz := hzero i (by omega) hi
    have hble2 := hWI2.toWPre.hble i hi
    have hbe : (si2.s.getD i default).buf = [] := by
      have : (si2.s.getD i default).buf.length = 0 := by omega
      exact List.length_eq_zero.mp this
    rw [hbe, List.append_nil] at hc2
    rw [hc2]
    rfl

/-- The chunks of each stream in a rendered body form valid `chain`s. -/
theorem chain_of_body (bz : Bzlib) (n : Nat) (D : List Nat)
    (hU : D.length < U32) :
    ∀ (evs : List Ev) (base : Nat) (rest : List Nat),
      D.drop base = bodyBytes evs base ++ rest →
      base + bodyLen evs ≤ D.length →
      (∀ e ∈ evs, EvWf bz n e) →
      ∀ i, chain bz D (nextPosB evs base i) (evsOf evs i) := by
  intro evs
  induction evs with
  | nil =>
    intro base rest hdrop hlen hwf i
    show chain bz D (nextPosB [] base i) []
    exact trivial
  | cons e r ih =>
    intro base rest hdrop hlen hwf i
    rw [bodyBytes_cons] at hdrop
    have hlen2 : base + evSize e + bodyLen r ≤ D.length := by
      rw [bodyLen_cons] at hlen
      omega
    have hdrop2 : D.drop (base + evSize e)
        = bodyBytes r (base + evSize e) ++ rest := by
      have hpre : D.drop base
          = (chunkHdr e.ctype e.c.length e.u.length
              (nextPosB r (base + evSize e) e.stream) ++ e.c)
            ++ (bodyBytes r (base + evSize e) ++ rest) := by
        rw [hdrop]
        simp [List.append_assoc]
      have hd := drop_of_drop_eq hpre
      have hl : (chunkHdr e.ctype e.c.length e.u.length
          (nextPosB r (base + evSize e) e.stream) ++ e.c).length
          = evSize e := by
        simp [chunkHdr_length, evSize]
      rw [hl] at hd
      exact hd
    have ihr := ih (base + evSize e) rest hdrop2 hlen2
      (fun f hf => hwf f (List.mem_cons_of_mem _ hf))
    have hwfe := hwf e (List.mem_cons_self _ _)
    obtain ⟨hsn, hu1, huU, hcu, hdis⟩ := hwfe
    rw [nextPosB_cons]
    have hnxle : nextPosB r (base + evSize e) e.stream
        ≤ D.length := by
      have := nextPosB_le r (base + evSize e) e.stream
      omega
    by_cases hei : e.stream = i
    · rw [if_pos hei]
      have hof : evsOf (e :: r) i = e :: evsOf r i := by
        simp [evsOf, hei]
      rw [hof]
      show ∃ nx tail,
        D.drop base = chunkHdr e.ctype e.c.length e.u.length nx
          ++ (e.c ++ tail) ∧
        e.c.length < U32 ∧ e.u.length < U32 ∧ nx < U32 ∧
        1 ≤ e.u.length ∧
        ((e.ctype = CTYPE_NONE ∧ e.c = e.u) ∨
         (e.ctype = CTYPE_BZIP2 ∧
           bz.bzDecompress e.u.length e.c = some e.u)) ∧
        chain bz D nx (evsOf r i)
      refine ⟨nextPosB r (base + evSize e) e.stream,
        bodyBytes r (base + evSize e) ++ rest, ?_, by omega, huU,
        by omega, hu1, hdis, ?_⟩
      · rw [hdrop]
        simp [List.append_assoc]
      · rw [← hei]
        exact ihr e.stream
    · rw [if_neg hei]
      have hof : evsOf (e :: r) i = evsOf r i := by
        simp [evsOf, hei]
      rw [hof]
      exact ihr i

theorem open_in_hdr_direct (data : List Nat) (w : Bool) (p ip i nx : Nat)
    (hnx : nx < U32) (rest : List Nat)
    (hdrop : data.drop p = chunkHdr CTYPE_NONE 0 0 nx ++ rest)
    (hp : p ≤ data.length) (hcond : ¬(nx = 0 ∧ i = 0)) :
    open_in_hdr ⟨data, p, w⟩ ip i
      = (some ((CTYPE_NONE, 0, 0, nx), ip, ⟨data, p + 13, w⟩), []) := by
  have hread : read_header ⟨data, p, w⟩
      = some ((CTYPE_NONE, 0, 0, nx), ⟨data, p + 13, w⟩) :=
    read_header_at CTYPE_NONE 0 0 nx (by norm_num [CTYPE_NONE])
      (by rw [U32_eq]; norm_num) (by rw [U32_eq]; norm_num) hnx rest
      hdrop hp
  rw [open_in_hdr]
  split
  · next heq =>
    rw [hread] at heq
    cases heq
  · next c v1 v2 lh fd' heq =>
    rw [hread] at heq
    simp only [Option.some.injEq, Prod.mk.injEq] at heq
    obtain ⟨⟨hc1, hv1, hv2, hlh⟩, hfd⟩ := heq
    subst hc1
    subst hv1
    subst hv2
    subst hlh
    subst hfd
    rw [if_neg (fun hh => hcond ⟨hh.2.2.2.1, hh.2.2.2.2⟩)]

/-- The per-stream records `open_stream_in` builds on success, as a
function of the next-offsets read from the initial headers. -/
def initRStreams (nxf : Nat → Nat) : Nat → List Stream
  | 0 => []
  | k + 1 =>
    { last_head := nxf 0, buf := [], buflen := 0, bufp := 0,
      bzip_level := 0 } :: initRStreams (fun j => nxf (j + 1)) k

theorem initRStreams_cons (nxf : Nat → Nat) (k : Nat) :
    initRStreams nxf (k + 1)
      = { last_head := nxf 0, buf := [], buflen := 0, bufp := 0,
          bzip_level := 0 } :: initRStreams (fun j => nxf (j + 1)) k := rfl

theorem initRStreams_length :
    ∀ (k : Nat) (nxf : Nat → Nat), (initRStreams nxf k).length = k := by
  intro k
  induction k with
  | zero => intro nxf; rfl
  | succ m ih =>
    intro nxf
    rw [initRStreams_cons, List.length_cons, ih]

theorem initRStreams_getD :
    ∀ (k : Nat) (nxf : Nat → Nat) (j : Nat), j < k →
      (initRStreams nxf k).getD j default
        = { last_head := nxf j, buf := [], buflen := 0, bufp := 0,
            bzip_level := 0 } := by
  intro k
  induction k with
  | zero => intro nxf j hj; omega
  | succ m ih =>
    intro nxf j hj
    rw [initRStreams_cons]
    cases j with
    | zero => rw [List.getD_cons_zero]
    | succ j' => rw [List.getD_cons_succ, ih _ j' (by omega)]

theorem open_in_loop_direct (data : List Nat) (w : Bool) :
    ∀ (k i p ip tr : Nat) (nxf : Nat → Nat), tr < U32 →
      (∀ j, j < k → nxf j < U32 ∧
        ∃ rest, data.drop (p + 13 * j)
          = chunkHdr CTYPE_NONE 0 0 (nxf j) ++ rest) →
      (i = 0 → 0 < k → nxf 0 ≠ 0) →
      open_in_loop ⟨data, p, w⟩ ip i k tr
        = (some (initRStreams nxf k, ip, ⟨data, p + 13 * k, w⟩,
            (tr + 13 * k) % U32), []) := by
  intro k
  induction k with
  | zero =>
    intro i p ip tr nxf htr hhdr hnz
    show (some (([] : List Stream), ip, (⟨data, p, w⟩ : Fd), tr), ([] : List Nat)) = _
    have h1 : initRStreams nxf 0 = [] := rfl
    rw [h1]
    have h2 : p + 13 * 0 = p := by omega
    have h3 : (tr + 13 * 0) % U32 = tr := by
      have : tr + 13 * 0 = tr := by omega
      rw [this, Nat.mod_eq_of_lt htr]
    rw [h2, h3]
  | succ m ih =>
    intro i p ip tr nxf htr hhdr hnz
    obtain ⟨hnx0, rest0, hdrop0⟩ := hhdr 0 (by omega)
    have hp13 : p + 13 * 0 = p := by omega
    rw [hp13] at hdrop0
    have hple : p ≤ data.length := by
      have hl := congrArg List.length hdrop0
      simp only [List.length_drop, List.length_append,
        chunkHdr_length] at hl
      omega
    have hU32pos : 0 < U32 := by rw [U32_eq]; norm_num
    have hhd := open_in_hdr_direct data w p ip i (nxf 0) hnx0 rest0 hdrop0 hple
      (fun hh => hnz hh.2 (by omega) hh.1)
    show (match open_in_hdr ⟨data, p, w⟩ ip i with
      | (none, log) => (none, log)
      | (some ((c, v1, v2, lh), ip', fd'), log1) =>
        if c ≠ CTYPE_NONE then (none, log1)
        else if v1 ≠ 0 then (none, log1)
        else if v2 ≠ 0 then (none, log1)
        else
          match open_in_loop fd' ip' (i + 1) m ((tr + 13) % U32) with
          | (none, log2) => (none, log1 ++ log2)
          | (some (ss, ip'', fd'', tr'), log2) =>
            (some (({ last_head := lh, buf := [], buflen := 0, bufp := 0,
                      bzip_level := 0 } : Stream) :: ss, ip'', fd'', tr'),
             log1 ++ log2)) = _
    rw [hhd]
    have hih := ih (i + 1) (p + 13) ip ((tr + 13) % U32)
      (fun j => nxf (j + 1)) (Nat.mod_lt _ hU32pos)
      (fun j hj => by
        obtain ⟨h1, rest, hdr⟩ := hhdr (j + 1) (by omega)
        refine ⟨h1, rest, ?_⟩
        have : p + 13 + 13 * j = p + 13 * (j + 1) := by omega
        rw [this]
        exact hdr)
      (fun hh => by omega)
    simp only
    rw [if_neg (by simp [CTYPE_NONE]), if_neg (by simp),
      if_neg (by simp), hih]
    simp only [List.nil_append]
    rw [initRStreams_cons]
    have hc1 : p + 13 + 13 * m = p + 13 * (m + 1) := by omega
    have hc2 : ((tr + 13) % U32 + 13 * m) % U32
        = (tr + 13 * (m + 1)) % U32 := by
      rw [Nat.mod_add_mod]
      congr 1
      omega
    rw [hc1, hc2]

theorem initHdrsFrom_drop (n : Nat) (evs : List Ev) :
    ∀ (count j i : Nat), j < count →
      (initHdrsFrom n evs i count).drop (13 * j)
        = chunkHdr CTYPE_NONE 0 0 (nextPosB evs (13 * n) (i + j))
          ++ initHdrsFrom n evs (i + j + 1) (count - j - 1) := by
  intro count
  induction count with
  | zero => intro j i hj; omega
  | succ m ih =>
    intro j i hj
    have hunf : initHdrsFrom n evs i (m + 1)
        = chunkHdr CTYPE_NONE 0 0 (nextPosB evs (13 * n) i)
          ++ initHdrsFrom n evs (i + 1) m := rfl
    cases j with
    | zero =>
      rw [hunf]
      have h0 : 13 * 0 = 0 := rfl
      rw [h0, List.drop_zero]
      have h1 : i + 0 = i := rfl
      rw [h1]
      have h2 : i + 0 + 1 = i + 1 := rfl
      rw [h2]
      have h3 : m + 1 - 0 - 1 = m := rfl
      rw [h3]
    | succ j' =>
      rw [hunf]
      have hsplit : 13 * (j' + 1)
          = (chunkHdr CTYPE_NONE 0 0
              (nextPosB evs (13 * n) i)).length + 13 * j' := by
        rw [chunkHdr_length]
        omega
      rw [hsplit, List.drop_append, ih j' (i + 1) (by omega)]
      have h1 : i + 1 + j' = i + (j' + 1) := by omega
      have h3 : m - j' - 1 = m + 1 - (j' + 1) - 1 := by omega
      rw [h1, h3]

/-- Opening a rendered file for reading succeeds when stream 0 has at
least one chunk (so its initial header's next-offset is nonzero and the
legacy-sentinel workaround does not misfire). -/
theorem open_stream_in_render (n : Nat) (evs : List Ev) (hn : 1 ≤ n)
    (hhas0 : hasEvB evs 0 = true)
    (hU : 13 * n + bodyLen evs < U32) :
    open_stream_in ⟨render n evs, 0, true⟩ n
      = some { s := initRStreams (fun j => nextPosB evs (13 * n) j) n,
               num_streams := n,
               fd := ⟨render n evs, 0 + 13 * n, true⟩,
               bufsize := 0, cur_pos := 0, initial_pos := 0,
               total_read := (0 + 13 * n) % U32 } := by
  have hU32pos : 0 < U32 := by rw [U32_eq]; norm_num
  have hloop := open_in_loop_direct (render n evs) true n 0 0 0 0
    (fun j => nextPosB evs (13 * n) j) hU32pos
    (fun j hj => by
      refine ⟨?_, ?_⟩
      · show nextPosB evs (13 * n) j < U32
        have := nextPosB_le evs (13 * n) j
        omega
      · refine ⟨initHdrsFrom n evs (0 + j + 1) (n - j - 1)
          ++ bodyBytes evs (13 * n), ?_⟩
        have hz : (0 : Nat) + 13 * j = 13 * j := by omega
        rw [hz]
        unfold render
        rw [List.drop_append_of_le_length (by
          rw [initHdrsFrom_length]
          omega)]
        rw [initHdrsFrom_drop n evs n j 0 hj]
        have h0 : (0 : Nat) + j = j := by omega
        rw [h0, List.append_assoc])
    (fun _ _ => by
      show nextPosB evs (13 * n) 0 ≠ 0
      have := nextPosB_pos evs (13 * n) 0 hhas0
      omega)
  unfold open_stream_in
  have hpos0 : (⟨render n evs, 0, true⟩ : Fd).pos = 0 := rfl
  rw [hpos0, hloop]

theorem mirrorReads_correct (bz : Bzlib) (D : List Nat) :
    ∀ (plan : List (Nat × List Nat)) (si : StreamInfo),
      si.fd.data = D → si.initial_pos = 0 →
      (∀ q ∈ plan, q.1 < si.s.length) →
      (∀ i, i < si.s.length →
        RInv bz D (si.s.getD i default) (writtenTo plan i)) →
      ∃ si', mirrorReads bz si plan = some (si', plan.map Prod.snd) := by
  intro plan
  induction plan with
  | nil =>
    intro si _ _ _ _
    exact ⟨si, rfl⟩
  | cons q rest ih =>
    obtain ⟨j, bs⟩ := q
    intro si hfd hip hmem hri
    have hj : j < si.s.length := hmem (j, bs) (List.mem_cons_self _ _)
    have hrj := hri j hj
    have hwt : writtenTo ((j, bs) :: rest) j = bs ++ writtenTo rest j := by
      rw [writtenTo_cons, if_pos rfl]
    rw [hwt] at hrj
    obtain ⟨si1, hread, h1fd, h1ok, h1ip, h1ns, h1bs, h1cp, h1slen,
      h1fr, h1R⟩ :=
      read_stream_correct bz D bs.length si j (bs ++ writtenTo rest j)
        hj hfd hip hrj (by simp)
    have htake : (bs ++ writtenTo rest j).take bs.length = bs :=
      List.take_left bs _
    have hdrop : (bs ++ writtenTo rest j).drop bs.length
        = writtenTo rest j := List.drop_left bs _
    rw [htake] at hread
    rw [hdrop] at h1R
    obtain ⟨si', hmr⟩ := ih si1 h1fd h1ip
      (fun q hq => by
        rw [h1slen]
        exact hmem q (List.mem_cons_of_mem _ hq))
      (fun i hi => by
        rw [h1slen] at hi
        by_cases hij : i = j
        · subst hij
          exact h1R
        · rw [h1fr i hij]
          have hwt2 : writtenTo ((j, bs) :: rest) i
              = writtenTo rest i := by
            rw [writtenTo_cons, if_neg (fun hh => hij hh.symm),
              List.nil_append]
          rw [← hwt2]
          exact hri i hi)
    refine ⟨si', ?_⟩
    rw [mirrorReads]
    simp only [Option.bind_eq_bind]
    rw [hread]
    simp only [Option.some_bind]
    rw [hmr]
    simp only [Option.some_bind, Option.pure_def, List.map_cons]

/-- C1: round-trip correctness of the multi-stream engine (amended: the
plan must put at least one byte into stream 0, or reopening trips the
legacy-sentinel workaround; sizes bounded to keep offsets below 2^32). -/
theorem round_trip_exact (bz : Bzlib) (n lvl : Nat)
    (plan : List (Nat × List Nat)) (hc : CodecOk bz)
    (hn : 1 ≤ n) (hlvl9 : lvl ≤ 9)
    (hmem : ∀ q ∈ plan, q.1 < n)
    (hzero : writtenTo plan 0 ≠ [])
    (hbound : 13 * n + 14 * planBytes plan + 14 < U32) :
    roundTrip bz n lvl plan = some (plan.map Prod.snd) := by
  obtain ⟨evs, hwr, hwf, hblU, hcontent⟩ :=
    writerFile_render bz n lvl plan hc hlvl9 hmem hbound
  have hhas0 : hasEvB evs 0 = true := by
    by_cases hh : hasEvB evs 0
    · exact hh
    · exfalso
      have he := hasEvB_evsOf evs 0 (by simpa using hh)
      have hf : flatU (evsOf evs 0) = [] := by
        rw [he]
        rfl
      rw [hcontent 0 (by omega)] at hf
      exact hzero hf
  have hopen := open_stream_in_render n evs hn hhas0 hblU
  have hDlen : (render n evs).length = 13 * n + bodyLen evs :=
    render_length n evs
  have hchain := chain_of_body bz n (render n evs) (by omega) evs
    (13 * n) []
    (by
      unfold render
      rw [List.drop_left' (initHdrsFrom_length n evs 0 n),
        List.append_nil])
    (by omega) hwf
  obtain ⟨siF, hmr⟩ := mirrorReads_correct bz (render n evs) plan
    { s := initRStreams (fun j => nextPosB evs (13 * n) j) n,
      num_streams := n,
      fd := ⟨render n evs, 0 + 13 * n, true⟩,
      bufsize := 0, cur_pos := 0, initial_pos := 0,
      total_read := (0 + 13 * n) % U32 }
    rfl rfl
    (by
      intro q hq
      show q.1 < (initRStreams _ n).length
      rw [initRStreams_length]
      exact hmem q hq)
    (by
      intro i hi
      rw [initRStreams_length] at hi
      show RInv bz (render n evs)
        ((initRStreams (fun j => nextPosB evs (13 * n) j) n).getD i
          default) (writtenTo plan i)
      rw [initRStreams_getD n _ i hi]
      refine ⟨evsOf evs i, rfl, Nat.le_refl 0, ?_, ?_⟩
      · show writtenTo plan i = List.drop 0 [] ++ flatU (evsOf evs i)
        rw [List.drop_zero, List.nil_append, hcontent i hi]
      · exact hchain i)
  unfold roundTrip
  rw [hwr]
  simp only [Option.bind_eq_bind, Option.some_bind]
  rw [hopen]
  simp only [Option.some_bind]
  rw [hmr]
  simp

/-- The file a 2-stream level-0 writer produces for one write of [5, 5]
to stream 1 (stream 0 never written). -/
def c1_file : List Nat :=
  [3, 0, 0, 0, 0, 0, 0, 0, 0, 0, 0, 0, 0,
   3, 0, 0, 0, 0, 0, 0, 0, 0, 26, 0, 0, 0,
   3, 2, 0, 0, 0, 2, 0, 0, 0, 0, 0, 0, 0, 5, 5]

def c1_si0 : StreamInfo :=
  { s := [⟨9, [], 0, 0, 0⟩, ⟨22, [], 0, 0, 0⟩], num_streams := 2,
    fd := ⟨[3, 0, 0, 0, 0, 0, 0, 0, 0, 0, 0, 0, 0,
            3, 0, 0, 0, 0, 0, 0, 0, 0, 0, 0, 0, 0], 26, true⟩,
    bufsize := 102400, cur_pos := 26, initial_pos := 0, total_read := 0 }

def c1_si1 : StreamInfo :=
  { s := [⟨9, [], 0, 0, 0⟩, ⟨22, [5, 5], 2, 0, 0⟩], num_streams := 2,
    fd := ⟨[3, 0, 0, 0, 0, 0, 0, 0, 0, 0, 0, 0, 0,
            3, 0, 0, 0, 0, 0, 0, 0, 0, 0, 0, 0, 0], 26, true⟩,
    bufsize := 102400, cur_pos := 26, initial_pos := 0, total_read := 0 }

def c1_si2 : StreamInfo :=
  { s := [⟨9, [], 0, 0, 0⟩, ⟨35, [], 0, 0, 0⟩], num_streams := 2,
    fd := ⟨c1_file, 41, true⟩,
    bufsize := 102400, cur_pos := 41, initial_pos := 0, total_read := 0 }

/-- C1, original form, refuted: a nonempty plan that never writes to
stream 0 round-trips to an error, not to the written bytes — the
untouched stream-0 placeholder header matches the legacy sentinel, the
workaround skips it, and header validation then fails on the payload
chunk. -/
theorem c1_counterexample :
    roundTrip bzStub 2 0 [(1, [5, 5])] = none ∧
      [(1, [5, 5])] ≠ ([] : List (Nat × List Nat)) := by
  have h0 : open_stream_out ⟨[], 0, true⟩ 2 0 = some c1_si0 := by decide
  have hws : write_stream bzStub c1_si0 1 [5, 5] = some c1_si1 := by
    simp [write_stream, c1_si0, c1_si1]
  have hcl : close_stream_out bzStub c1_si1 = some c1_si2 := by decide
  have h1 : writerFile bzStub 2 0 [(1, [5, 5])] = some c1_file := by
    simp [writerFile, runPlan, h0, hws, hcl, c1_si2]
  have h2 : open_stream_in ⟨c1_file, 0, true⟩ 2 = none := by
    simp [open_stream_in, open_in_loop, open_in_hdr, read_header, read_u8,
      read_u16, read_u32, read_buf, CTYPE_NONE, c1_file]
  refine ⟨?_, by simp⟩
  simp [roundTrip, h1, h2]



/-- Witness for the amended C1 theorem: a concrete one-stream round trip
of a single byte list. -/
theorem round_trip_exact_witness :
    CodecOk bzStub ∧ (1 : Nat) ≤ 1 ∧ (0 : Nat) ≤ 9 ∧
      (∀ q ∈ [((0 : Nat), [(42 : Nat)])], q.1 < 1) ∧
      writtenTo [(0, [42])] 0 ≠ [] ∧
      13 * 1 + 14 * planBytes [(0, [42])] + 14 < U32 ∧
      roundTrip bzStub 1 0 [(0, [42])] = some [[42]] := by
  refine ⟨bzStub_codecOk, by decide, by decide, by decide, by decide,
    by decide, ?_⟩
  exact round_trip_exact bzStub 1 0 [(0, [42])] bzStub_codecOk
    (by decide) (by decide) (by decide) (by decide) (by decide)

end Rzip
